import Mathlib

/-!
Verification of the Aphelion layered raster editor core: the document model
(`src/src/aphelion/core/document.py`), the byte-budgeted undo history
(`src/src/aphelion/core/history.py`), the command objects
(`src/src/core/commands.py`, `src/src/core/layer.py`) and the caching
compositor (`src/src/aphelion/core/renderer_cairo.py`).

The Python code is embedded shallowly: mutation becomes explicit state
passing, QImage buffers become size-tagged pixel functions, Python `dict`s
become association lists, and the 8-bit blending arithmetic performed by the
Qt/pixman raster backends is modelled by the usual `(t + 128 + ...) >> 8`
rounding division by 255.
-/

namespace Aphelion

/-- Rounding division by 255 as done by the pixman / Qt raster backends:
`t = v + 0x80; (t + (t >> 8)) >> 8`, an exact round-to-nearest of `v / 255`
for the products of two bytes. -/
def div255 (v : Nat) : Nat :=
  ((v + 128) + (v + 128) / 256) / 256

/-- One premultiplied-alpha pixel (Qt `Format_ARGB32_Premultiplied`,
Cairo `FORMAT_ARGB32`; BGRA byte order on little-endian). -/
structure Pixel where
  b : Nat
  g : Nat
  r : Nat
  a : Nat
deriving DecidableEq, Repr

/-- The fully transparent pixel. -/
def Pixel.clear : Pixel := ⟨0, 0, 0, 0⟩

/-- Scale every channel of a premultiplied pixel by an 8-bit factor,
as pixman does when compositing through a solid alpha mask
(`cairo_paint_with_alpha`). -/
def Pixel.scale (p : Pixel) (a8 : Nat) : Pixel :=
  ⟨div255 (p.b * a8), div255 (p.g * a8), div255 (p.r * a8), div255 (p.a * a8)⟩

/-- A 4-channel premultiplied image buffer: a size-tagged pixel function
(QImage `Format_ARGB32_Premultiplied` / Cairo `FORMAT_ARGB32`). -/
structure Image where
  w : Nat
  h : Nat
  px : Nat → Nat → Pixel

/-- A single-channel coverage buffer (QImage `Format_Alpha8`):
0 = unselected / transparent, 255 = selected / opaque. -/
structure AMask where
  w : Nat
  h : Nat
  px : Nat → Nat → Nat

/-- The transparent image of the given size. -/
def Image.blank (w h : Nat) : Image := ⟨w, h, fun _ _ => Pixel.clear⟩

/-- Qt composition modes that occur in this code base (`Layer.blend_mode`
defaults to `SourceOver`; `combine_selection` uses `SourceOver`,
`DestinationOut`, `DestinationIn`; `CanvasCommand._restore` uses `Source`).
`otherMode` stands for any further Qt mode, which
`_qt_blend_to_cairo` sends to the normal `OVER` fallback. -/
inductive QtMode where
  | sourceOver
  | destinationIn
  | destinationOut
  | clear
  | source
  | otherMode
deriving DecidableEq, Repr

/-- Cairo compositing operators reached through `_qt_blend_to_cairo`. -/
inductive CairoOp where
  | over
  | destIn
  | destOut
  | opClear
  | opSource
deriving DecidableEq, Repr

/-- `_qt_blend_to_cairo` (renderer_cairo.py): map a Qt composition mode to a
Cairo operator; unknown modes fall back to `OPERATOR_OVER`. -/
def qtToCairo : QtMode → CairoOp
  | .sourceOver => .over
  | .destinationIn => .destIn
  | .destinationOut => .destOut
  | .clear => .opClear
  | .source => .opSource
  | .otherMode => .over

/-- Per-pixel semantics of the Cairo operators on premultiplied pixels
(`dst` is the accumulated output, `src` the already opacity-scaled source). -/
def CairoOp.apply : CairoOp → Pixel → Pixel → Pixel
  | .over, d, s =>
      ⟨s.b + div255 (d.b * (255 - s.a)), s.g + div255 (d.g * (255 - s.a)),
       s.r + div255 (d.r * (255 - s.a)), s.a + div255 (d.a * (255 - s.a))⟩
  | .destIn, d, s =>
      ⟨div255 (d.b * s.a), div255 (d.g * s.a), div255 (d.r * s.a), div255 (d.a * s.a)⟩
  | .destOut, d, s =>
      ⟨div255 (d.b * (255 - s.a)), div255 (d.g * (255 - s.a)),
       div255 (d.r * (255 - s.a)), div255 (d.a * (255 - s.a))⟩
  | .opClear, _, _ => Pixel.clear
  | .opSource, _, s => s

/-- Alpha8 `SourceOver` on the single coverage channel (`combine_selection`,
operation `add`). -/
def alphaOver (s d : Nat) : Nat := s + div255 (d * (255 - s))

/-- Alpha8 `DestinationOut`: `dst * (1 - src)` (`combine_selection`,
operation `subtract`). -/
def alphaDestOut (s d : Nat) : Nat := div255 (d * (255 - s))

/-- Alpha8 `DestinationIn`: `dst * src` (`combine_selection`,
operation `intersect`). -/
def alphaDestIn (s d : Nat) : Nat := div255 (d * s)

/-- Conversion of a floating-point opacity to the 8-bit solid-mask alpha
used by `cairo_paint_with_alpha` (double → 16-bit with round-half-up, then
the high byte).  This is `⌊q * 65535 + 1/2⌋.toNat / 256`, written out on
`num`/`den` so that it evaluates by kernel reduction. -/
def opacityA8 (q : ℚ) : Nat :=
  (Int.fdiv (q.num * 65535 * 2 + q.den) (2 * q.den)).toNat / 256

/-- The rational one half (`0.5` in the Python sources), as a raw literal
so that it evaluates by kernel reduction. -/
def rhalf : ℚ := ⟨1, 2, by decide, by decide⟩

/-- A layer (`src/src/core/layer.py`).  `id` models the `uuid4` string:
Python object identity comparisons on layers are modelled by comparing ids,
which the Document keeps unique.  `effect` models
`AdjustmentLayer.render_effect`, the pure effect function applied to the
accumulated output when `is_adjustment` is set; plain layers carry the
identity. -/
structure Layer where
  id : Nat
  name : String
  visible : Bool
  opacity : ℚ
  blend_mode : QtMode
  image : Image
  mask : Option AMask
  is_adjustment : Bool
  effect : Image → Image

/-- Construct a fresh transparent layer (`Layer.__init__`). -/
def mkLayer (w h : Nat) (id : Nat) (name : String) : Layer :=
  { id := id, name := name, visible := true, opacity := 1,
    blend_mode := .sourceOver, image := Image.blank w h, mask := none,
    is_adjustment := false, effect := fun i => i }

/-- A rectangle in pixel coordinates (`QRect(x, y, w, h)` as used by
`set_selection` and the canvas-command dirty rects, which this code base
only builds with non-negative coordinates). -/
structure Rect where
  x : Nat
  y : Nat
  w : Nat
  h : Nat
deriving DecidableEq, Repr

/-- Membership of a point in a `Rect`. -/
def Rect.mem (r : Rect) (px py : Nat) : Prop :=
  r.x ≤ px ∧ px < r.x + r.w ∧ r.y ≤ py ∧ py < r.y + r.h

instance (r : Rect) (px py : Nat) : Decidable (r.mem px py) := by
  unfold Rect.mem; infer_instance

/-- The values `LayerPropertyCommand` sets through `setattr` in this code
base (name, visibility, opacity, blend mode). -/
inductive LayerPropVal where
  | visible (b : Bool)
  | opacity (q : ℚ)
  | name (s : String)
  | blendMode (m : QtMode)

/-- Primitive undoable commands (`src/src/core/commands.py`).  The canvas
command is split by its `target` field ("image" vs "mask"); each captured
region is `(rect, cropped buffer)` with `none` for an absent capture.
`notifies` records whether a `signal_callback` emitting `content_changed`
was attached (that signal invalidates the render cache). -/
inductive PrimCmd where
  | canvasImg (lid : Nat) (before after : Option (Rect × (Nat → Nat → Pixel)))
  | canvasMask (lid : Nat) (before after : Option (Rect × (Nat → Nat → Nat)))
  | layerProp (lid : Nat) (oldv newv : LayerPropVal) (notifies : Bool)
  | structAdd (layer : Layer) (index : Nat)
  | structRemove (layer : Layer) (index : Nat)
  | structMove (index : Nat) (previous : Nat)
  | docProp (oldv newv : Nat × Nat) (notifies : Bool)
  | selection (oldm newm : AMask)

/-- A command entering the history: a primitive, or a `MacroCommand`
(every macro built by document.py holds primitive commands). -/
inductive Cmd where
  | prim (c : PrimCmd)
  | macroCommand (cs : List PrimCmd)

/-- Byte size of an Alpha8 crop: `QImage.sizeInBytes` with the 4-byte
stride alignment. -/
def alpha8Bytes (r : Rect) : Nat := (4 * ((r.w + 3) / 4)) * r.h

/-- Byte size of an ARGB32 crop (`bytesPerLine = 4 * w`). -/
def argbBytes (r : Rect) : Nat := (4 * r.w) * r.h

/-- Byte size of an optional captured region. -/
def cropBytes (f : Rect → Nat) : Option (Rect × α) → Nat
  | none => 0
  | some (r, _) => f r

/-- `memory_bytes` of a primitive command (`commands.py`): canvas commands
sum the sizes of both captured crops, property commands report a small
fixed overhead. -/
def PrimCmd.bytes : PrimCmd → Nat
  | .canvasImg _ b a => cropBytes argbBytes b + cropBytes argbBytes a
  | .canvasMask _ b a => cropBytes alpha8Bytes b + cropBytes alpha8Bytes a
  | .layerProp _ _ _ _ => 64
  | .structAdd _ _ => 128
  | .structRemove _ _ => 128
  | .structMove _ _ => 128
  | .docProp _ _ _ => 128
  | .selection o n => alpha8Bytes ⟨0, 0, o.w, o.h⟩ + alpha8Bytes ⟨0, 0, n.w, n.h⟩

/-- `memory_bytes` of a command; a macro sums its children. -/
def Cmd.bytes : Cmd → Nat
  | .prim c => c.bytes
  | .macroCommand cs => (cs.map PrimCmd.bytes).sum

/-- Sum of `memory_bytes` over a command list. -/
def stackBytes (cs : List Cmd) : Nat := (cs.map Cmd.bytes).sum

/-- The history manager state (`HistoryManager.__init__`):
`cached_memory` models the Python int `_cached_memory`. -/
structure HistoryManager where
  undo_stack : List Cmd
  redo_stack : List Cmd
  limit : Nat
  memory_limit : Nat
  cached_memory : Int

/-- `HistoryManager()` with its defaults: `limit = 100`,
`memory_limit = 500 * 1024 * 1024`. -/
def mkHistory : HistoryManager :=
  { undo_stack := [], redo_stack := [], limit := 100,
    memory_limit := 500 * 1024 * 1024, cached_memory := 0 }

/-- The eviction loop of `_evict_if_needed`: pop the oldest entry while the
tracked bytes exceed the budget and more than one entry remains. -/
def evictLoop (budget : Int) : Int → List Cmd → Int × List Cmd
  | cached, [] => (cached, [])
  | cached, c :: rest =>
      if cached > budget ∧ 1 ≤ rest.length then
        evictLoop budget (cached - (c.bytes : Int)) rest
      else
        (cached, c :: rest)

/-- The count-limit backstop at the end of `push`: pop the oldest entry
while the stack is longer than `limit`, subtracting its bytes. -/
def countTrim (limit : Nat) : Int → List Cmd → Int × List Cmd
  | cached, [] => (cached, [])
  | cached, c :: rest =>
      if (c :: rest).length > limit then
        countTrim limit (cached - (c.bytes : Int)) rest
      else
        (cached, c :: rest)

/-- `HistoryManager.push`: append, add the command's bytes, clear the redo
stack (subtracting its bytes), evict by byte pressure, then trim by
count. -/
def HistoryManager.push (c : Cmd) (hm : HistoryManager) : HistoryManager :=
  let undo1 := hm.undo_stack ++ [c]
  let cached1 := hm.cached_memory + (c.bytes : Int)
  let cached2 := cached1 - (stackBytes hm.redo_stack : Int)
  let ev := evictLoop hm.memory_limit cached2 undo1
  let tr := countTrim hm.limit ev.1 ev.2
  { hm with undo_stack := tr.2, redo_stack := [], cached_memory := tr.1 }

/-- `HistoryManager.clear`. -/
def HistoryManager.clearAll (hm : HistoryManager) : HistoryManager :=
  { hm with undo_stack := [], redo_stack := [], cached_memory := 0 }

/-- Lookup in an association list modelling a Python `dict`. -/
def dget (l : List (Nat × β)) (k : Nat) : Option β :=
  match l with
  | [] => none
  | (k', v) :: rest => if k' = k then some v else dget rest k

/-- Update / insert in an association list modelling a Python `dict`. -/
def dset (l : List (Nat × β)) (k : Nat) (v : β) : List (Nat × β) :=
  match l with
  | [] => [(k, v)]
  | (k', v') :: rest => if k' = k then (k, v) :: rest else (k', v') :: dset rest k v

/-- The renderer state (`CairoRenderer.__init__`): a surface cache
`layer_id -> (surface, version)` and the invalidation counters
`layer_id -> version`.  Surface / QImage conversions are lossless on
little-endian, so a cached surface is an `Image`. -/
structure RState where
  cache : List (Nat × (Image × Nat))
  versions : List (Nat × Nat)

/-- The empty renderer state (fresh renderer, or after `invalidate_all`). -/
def RState.empty : RState := ⟨[], []⟩

/-- Current invalidation counter of a layer
(`self._layer_versions.get(layer_id, 0)`). -/
def RState.version (r : RState) (lid : Nat) : Nat := (dget r.versions lid).getD 0

/-- `CairoRenderer.invalidate_layer`: increment the version counter,
lazily creating it at 1. -/
def RState.invalidate (r : RState) (lid : Nat) : RState :=
  match dget r.versions lid with
  | some v => { r with versions := dset r.versions lid (v + 1) }
  | none => { r with versions := dset r.versions lid 1 }

/-- `CairoRenderer._get_layer_surface`: return the cached surface when its
recorded version equals the current counter, otherwise rebuild it from the
layer's image and store it at the current version. -/
def getLayerSurface (r : RState) (l : Layer) : Image × RState :=
  let current := r.version l.id
  match dget r.cache l.id with
  | some sv =>
      if sv.2 = current then (sv.1, r)
      else (l.image, { r with cache := dset r.cache l.id (l.image, current) })
  | none => (l.image, { r with cache := dset r.cache l.id (l.image, current) })

/-- `CairoRenderer._apply_mask`: multiply the layer surface by the mask's
coverage (`DEST_IN` against the mask surface; outside the mask's extent the
source is transparent). -/
def maskedSurface (s : Image) (m : AMask) : Image :=
  ⟨s.w, s.h, fun x y => (s.px x y).scale (if x < m.w ∧ y < m.h then m.px x y else 0)⟩

/-- One compositing step of `CairoRenderer.render`: paint `surf` onto `out`
through the layer's operator with the opacity as a solid alpha mask
(`ctx.paint_with_alpha`); outside the source extent the source is
transparent. -/
def compositeStep (op : CairoOp) (a8 : Nat) (out surf : Image) : Image :=
  ⟨out.w, out.h, fun x y =>
    op.apply (out.px x y)
      ((if x < surf.w ∧ y < surf.h then surf.px x y else Pixel.clear).scale a8)⟩

/-- The layer loop of `CairoRenderer.render`: skip invisible layers, thread
adjustment layers' effects through the accumulated output, and composite
every other layer from its (cached) surface. -/
def renderLayers : List Layer → RState → Image → Image × RState
  | [], r, out => (out, r)
  | l :: ls, r, out =>
      if l.visible = false then renderLayers ls r out
      else if l.is_adjustment then renderLayers ls r (l.effect out)
      else
        let sr := getLayerSurface r l
        let surf := match l.mask with
          | some m => maskedSurface sr.1 m
          | none => sr.1
        renderLayers ls sr.2
          (compositeStep (qtToCairo l.blend_mode) (opacityA8 l.opacity) out surf)

/-- The selection-combination operations of `Document.combine_selection`. -/
inductive SelOp where
  | replace
  | add
  | subtract
  | intersect
deriving DecidableEq, Repr

/-- `QPainter.drawImage(0, 0, src)` on an Alpha8 buffer under a pixel
combination mode (`mode src_value dst_value`); pixels outside the source's
extent are untouched. -/
def drawA8 (mode : Nat → Nat → Nat) (dst src : AMask) : AMask :=
  ⟨dst.w, dst.h, fun x y =>
    if x < src.w ∧ y < src.h then mode (src.px x y) (dst.px x y) else dst.px x y⟩

/-- The mask produced by `Document.combine_selection` before it is stored:
replace = fill 0 then draw, add = `SourceOver`, subtract = `DestinationOut`,
intersect = `DestinationIn`. -/
def combineMask (op : SelOp) (cur newm : AMask) : AMask :=
  match op with
  | .replace => drawA8 (fun s _ => alphaOver s 0) ⟨cur.w, cur.h, fun _ _ => 0⟩ newm
  | .add => drawA8 alphaOver cur newm
  | .subtract => drawA8 alphaDestOut cur newm
  | .intersect => drawA8 alphaDestIn cur newm

/-- Whether some pixel of the mask (within its bounds) is positive. -/
def maskNonzeroB (m : AMask) : Bool :=
  (List.range m.h).any fun y => (List.range m.w).any fun x => m.px x y != 0

/-- The document state (`Document.__init__`), including its history and its
`CairoRenderer`.  `selection_region` is the traversable `QRegion` derived
from the selection mask, as a membership predicate on pixels. -/
structure Document where
  width : Nat
  height : Nat
  layers : List Layer
  active_layer_index : Int
  selection_mask : AMask
  has_selection : Bool
  selection_region : Nat → Nat → Bool
  history : HistoryManager
  renderer : RState

/-- `Document(width, height)`: no layers, active index -1, empty selection
mask, empty region, fresh history and renderer. -/
def mkDocument (w h : Nat) : Document :=
  { width := w, height := h, layers := [], active_layer_index := -1,
    selection_mask := ⟨w, h, fun _ _ => 0⟩, has_selection := false,
    selection_region := fun _ _ => false, history := mkHistory,
    renderer := RState.empty }

/-- `Document._update_selection_region`: rebuild the region and the
`has_selection` flag from the mask.  The Qt pipeline
(`createMaskFromColor(0, MaskInColor)` → `QBitmap` → `QRegion`) is modelled
by its observed behaviour, pinned down by this repository's own tests
(test_phase1.py, test_tools.py): the region consists of the in-bounds pixels
whose mask value is not 0, and `has_selection` holds iff the region is
nonempty. -/
def updateSelectionRegion (d : Document) : Document :=
  let m := d.selection_mask
  { d with
    selection_region := fun x y => decide (x < m.w) && decide (y < m.h) && (m.px x y != 0),
    has_selection := maskNonzeroB m }

/-- Python `list.insert`, which clamps the position to the list's length. -/
def pyInsert (i : Nat) (a : α) (l : List α) : List α :=
  l.insertIdx (min i l.length) a

/-- `Document.set_active_layer`: only set the index when it is valid. -/
def Document.set_active_layer (d : Document) (i : Int) : Document :=
  if 0 ≤ i ∧ i < (d.layers.length : Int) then { d with active_layer_index := i } else d

/-- `Document.get_active_layer`. -/
def Document.get_active_layer (d : Document) : Option Layer :=
  if 0 ≤ d.active_layer_index ∧ d.active_layer_index < (d.layers.length : Int) then
    d.layers[d.active_layer_index.toNat]?
  else none

/-- Emission of `content_changed`, which `Document.__init__` connects to
`_invalidate_render_cache`: invalidate the renderer entry of every current
layer. -/
def invalidateAllCaches (d : Document) : Document :=
  { d with renderer := d.layers.foldl (fun r l => r.invalidate l.id) d.renderer }

/-- Update the (unique) layer with the given id. -/
def updateLayerById (d : Document) (lid : Nat) (f : Layer → Layer) : Document :=
  { d with layers := d.layers.map fun l => if l.id = lid then f l else l }

/-- Apply a `LayerPropertyCommand` value (`setattr`). -/
def Layer.setProp (l : Layer) : LayerPropVal → Layer
  | .visible b => { l with visible := b }
  | .opacity q => { l with opacity := q }
  | .name s => { l with name := s }
  | .blendMode m => { l with blend_mode := m }

/-- `CanvasCommand._restore` for an image target: paint the captured crop
back at its recorded offset with `CompositionMode_Source` (overwrite). -/
def overwriteRegion (img : Image) (r : Rect) (data : Nat → Nat → Pixel) : Image :=
  ⟨img.w, img.h, fun x y => if r.mem x y then data (x - r.x) (y - r.y) else img.px x y⟩

/-- `CanvasCommand._restore` for a mask target. -/
def overwriteRegionA (m : AMask) (r : Rect) (data : Nat → Nat → Nat) : AMask :=
  ⟨m.w, m.h, fun x y => if r.mem x y then data (x - r.x) (y - r.y) else m.px x y⟩

/-- `execute()` of a primitive command.  Signal emissions are modelled by
their only in-core effect: `content_changed` invalidates the render cache.
A guard that would raise `IndexError` in Python (never reached from states
this core builds) leaves the document unchanged. -/
def execPrim (c : PrimCmd) (d : Document) : Document :=
  match c with
  | .canvasImg lid _ aft =>
      match aft with
      | some (r, data) =>
          if 0 < r.w ∧ 0 < r.h then
            updateLayerById d lid fun l => { l with image := overwriteRegion l.image r data }
          else d
      | none => d
  | .canvasMask lid _ aft =>
      match aft with
      | some (r, data) =>
          if 0 < r.w ∧ 0 < r.h then
            updateLayerById d lid fun l =>
              match l.mask with
              | some m => { l with mask := some (overwriteRegionA m r data) }
              | none => l
          else d
      | none => d
  | .layerProp lid _ newv notifies =>
      let d' := updateLayerById d lid fun l => l.setProp newv
      if notifies then invalidateAllCaches d' else d'
  | .structAdd layer index =>
      Document.set_active_layer { d with layers := pyInsert index layer d.layers } index
  | .structRemove layer index =>
      match d.layers[index]? with
      | some l0 =>
          if l0.id = layer.id then
            let ls' := d.layers.eraseIdx index
            let d' := { d with layers := ls' }
            if (ls'.length : Int) ≤ d'.active_layer_index then
              d'.set_active_layer ((ls'.length : Int) - 1)
            else d'
          else d
      | none => d
  | .structMove index previous =>
      match d.layers[previous]? with
      | some layer =>
          let ls' := pyInsert index layer (d.layers.eraseIdx previous)
          let d' := invalidateAllCaches { d with layers := ls' }
          match d'.get_active_layer with
          | some al => if al.id = layer.id then d'.set_active_layer index else d'
          | none => d'
      | none => d
  | .docProp _ newv notifies =>
      let d' := { d with width := newv.1, height := newv.2 }
      if notifies then invalidateAllCaches d' else d'
  | .selection _ newm =>
      updateSelectionRegion { d with selection_mask := newm }

/-- `undo()` of a primitive command. -/
def undoPrim (c : PrimCmd) (d : Document) : Document :=
  match c with
  | .canvasImg lid bef _ =>
      match bef with
      | some (r, data) =>
          if 0 < r.w ∧ 0 < r.h then
            updateLayerById d lid fun l => { l with image := overwriteRegion l.image r data }
          else d
      | none => d
  | .canvasMask lid bef _ =>
      match bef with
      | some (r, data) =>
          if 0 < r.w ∧ 0 < r.h then
            updateLayerById d lid fun l =>
              match l.mask with
              | some m => { l with mask := some (overwriteRegionA m r data) }
              | none => l
          else d
      | none => d
  | .layerProp lid oldv _ notifies =>
      let d' := updateLayerById d lid fun l => l.setProp oldv
      if notifies then invalidateAllCaches d' else d'
  | .structAdd layer index =>
      match d.layers[index]? with
      | some l0 =>
          if l0.id = layer.id then
            Document.set_active_layer { d with layers := d.layers.eraseIdx index }
              (max 0 ((index : Int) - 1))
          else d
      | none => d
  | .structRemove layer index =>
      Document.set_active_layer { d with layers := pyInsert index layer d.layers } index
  | .structMove index previous =>
      match d.layers[index]? with
      | some layer =>
          let ls' := pyInsert previous layer (d.layers.eraseIdx index)
          let d' := invalidateAllCaches { d with layers := ls' }
          match d'.get_active_layer with
          | some al => if al.id = layer.id then d'.set_active_layer previous else d'
          | none => d'
      | none => d
  | .docProp oldv _ notifies =>
      let d' := { d with width := oldv.1, height := oldv.2 }
      if notifies then invalidateAllCaches d' else d'
  | .selection oldm _ =>
      updateSelectionRegion { d with selection_mask := oldm }

/-- `Command.execute`; a macro replays its children in order. -/
def Cmd.execC (c : Cmd) (d : Document) : Document :=
  match c with
  | .prim p => execPrim p d
  | .macroCommand cs => cs.foldl (fun d p => execPrim p d) d

/-- `Command.undo`; a macro replays its children in reverse order. -/
def Cmd.undoC (c : Cmd) (d : Document) : Document :=
  match c with
  | .prim p => undoPrim p d
  | .macroCommand cs => cs.reverse.foldl (fun d p => undoPrim p d) d

/-- `history.push` on the document. -/
def docPush (c : Cmd) (d : Document) : Document :=
  { d with history := d.history.push c }

/-- `HistoryManager.undo` run against the document: pop the newest undo
entry, run its `undo()`, move it to the redo stack (no-op when empty). -/
def docUndo (d : Document) : Document :=
  match d.history.undo_stack.getLast? with
  | none => d
  | some c =>
      let d1 := { d with history := { d.history with undo_stack := d.history.undo_stack.dropLast } }
      let d2 := Cmd.undoC c d1
      { d2 with history := { d2.history with redo_stack := d2.history.redo_stack ++ [c] } }

/-- `HistoryManager.redo` run against the document. -/
def docRedo (d : Document) : Document :=
  match d.history.redo_stack.getLast? with
  | none => d
  | some c =>
      let d1 := { d with history := { d.history with redo_stack := d.history.redo_stack.dropLast } }
      let d2 := Cmd.execC c d1
      { d2 with history := { d2.history with undo_stack := d2.history.undo_stack ++ [c] } }

/-- Iterated `docUndo`. -/
def undoTimes : Nat → Document → Document
  | 0, d => d
  | n + 1, d => undoTimes n (docUndo d)

/-- Iterated `docRedo`. -/
def redoTimes : Nat → Document → Document
  | 0, d => d
  | n + 1, d => redoTimes n (docRedo d)

/-- `HistoryManager.goto_index` run against the document: replay `undo`
down to the requested logical index (never moves forward). -/
def docGoto (d : Document) (index : Int) : Document :=
  let current : Int := (d.history.undo_stack.length : Int) - 1
  if index < 0 ∨ index > current then d
  else undoTimes (current - index).toNat d

/-- `HistoryManager.clear` run against the document. -/
def docClearHistory (d : Document) : Document :=
  { d with history := d.history.clearAll }

/-- The numeric kernels of `utils/image_processing.py` used by the selection
morphology operations (`gaussian_blur_np`, `morphological_dilate`,
`morphological_erode`).  They are pure mask-to-mask functions whose numeric
content none of the verified claims depends on, so the document operations
are stated for an arbitrary choice of kernels. -/
structure SelKernels where
  blur : AMask → ℚ → AMask
  dilate : AMask → Int → AMask
  erode : AMask → Int → AMask

/-- The trivial kernel instantiation (used only to instantiate
witness statements). -/
def idKernels : SelKernels := ⟨fun m _ => m, fun m _ => m, fun m _ => m⟩

/-- `Document.combine_selection`: build the combined mask, push a
`SelectionCommand`, then execute it. -/
def Document.combine_selection (d : Document) (newm : AMask) (op : SelOp) : Document :=
  let news := combineMask op d.selection_mask newm
  let cmd : Cmd := .prim (.selection d.selection_mask news)
  Cmd.execC cmd (docPush cmd d)

/-- `Document.set_selection`: rasterize the rectangle into a fresh Alpha8
mask (`fillRect` with white) and combine it. -/
def Document.set_selection (d : Document) (r : Rect) (op : SelOp) : Document :=
  d.combine_selection ⟨d.width, d.height, fun x y => if r.mem x y then 255 else 0⟩ op

/-- `Document.clear_selection`: no-op without a selection, otherwise replace
with an empty rectangle. -/
def Document.clear_selection (d : Document) : Document :=
  if d.has_selection = false then d else d.set_selection ⟨0, 0, 0, 0⟩ .replace

/-- `Document.select_all`. -/
def Document.select_all (d : Document) : Document :=
  d.combine_selection ⟨d.width, d.height, fun _ _ => 255⟩ .replace

/-- `Document.invert_selection` (`invertPixels` on Alpha8: `v ↦ 255 - v`). -/
def Document.invert_selection (d : Document) : Document :=
  let m := d.selection_mask
  let newm : AMask := ⟨m.w, m.h, fun x y => 255 - m.px x y⟩
  let cmd : Cmd := .prim (.selection m newm)
  Cmd.execC cmd (docPush cmd d)

/-- `Document.feather_selection`: guarded no-op, else blur with
`sigma = radius / 3` and push a `SelectionCommand`. -/
def Document.feather_selection (ks : SelKernels) (d : Document) (radius : Int) : Document :=
  if d.has_selection = false ∨ radius ≤ 0 then d
  else
    let newm := ks.blur d.selection_mask ((radius : ℚ) / 3)
    let cmd : Cmd := .prim (.selection d.selection_mask newm)
    Cmd.execC cmd (docPush cmd d)

/-- `Document.expand_selection`: guarded no-op, else morphological
dilation. -/
def Document.expand_selection (ks : SelKernels) (d : Document) (amount : Int) : Document :=
  if d.has_selection = false ∨ amount ≤ 0 then d
  else
    let newm := ks.dilate d.selection_mask amount
    let cmd : Cmd := .prim (.selection d.selection_mask newm)
    Cmd.execC cmd (docPush cmd d)

/-- `Document.contract_selection`: guarded no-op, else morphological
erosion. -/
def Document.contract_selection (ks : SelKernels) (d : Document) (amount : Int) : Document :=
  if d.has_selection = false ∨ amount ≤ 0 then d
  else
    let newm := ks.erode d.selection_mask amount
    let cmd : Cmd := .prim (.selection d.selection_mask newm)
    Cmd.execC cmd (docPush cmd d)

/-- `Document.add_layer`: build a fresh document-sized layer, push an "add"
structure command at index `len(layers)`, then execute it.  `id` models the
fresh `uuid4`. -/
def Document.add_layer (d : Document) (id : Nat) (name : String) : Document :=
  let layer := mkLayer d.width d.height id name
  let cmd : Cmd := .prim (.structAdd layer d.layers.length)
  Cmd.execC cmd (docPush cmd d)

/-- `Document.delete_layer`: guarded by a valid index and more than one
remaining layer. -/
def Document.delete_layer (d : Document) (index : Int) : Document :=
  if 0 ≤ index ∧ index < (d.layers.length : Int) ∧ 1 < d.layers.length then
    match d.layers[index.toNat]? with
    | some layer =>
        let cmd : Cmd := .prim (.structRemove layer index.toNat)
        Cmd.execC cmd (docPush cmd d)
    | none => d
  else d

/-- `Document.duplicate_layer`: copy image and display properties into a
fresh layer inserted right above the original. -/
def Document.duplicate_layer (d : Document) (index : Int) (id : Nat) : Document :=
  if index < 0 ∨ (d.layers.length : Int) ≤ index then d
  else
    match d.layers[index.toNat]? with
    | some orig =>
        let nl := { mkLayer orig.image.w orig.image.h id (orig.name ++ " Copy") with
          image := orig.image, opacity := orig.opacity, visible := orig.visible,
          blend_mode := orig.blend_mode }
        let cmd : Cmd := .prim (.structAdd nl (index.toNat + 1))
        Cmd.execC cmd (docPush cmd d)
    | none => d

/-- `Document.move_layer`: guarded no-op for an identical or invalid index
pair. -/
def Document.move_layer (d : Document) (fromIdx toIdx : Int) : Document :=
  if fromIdx = toIdx then d
  else if 0 ≤ fromIdx ∧ fromIdx < (d.layers.length : Int) ∧
          0 ≤ toIdx ∧ toIdx < (d.layers.length : Int) then
    let cmd : Cmd := .prim (.structMove toIdx.toNat fromIdx.toNat)
    Cmd.execC cmd (docPush cmd d)
  else d

/-- `Document.move_layer_up`. -/
def Document.move_layer_up (d : Document) : Document :=
  let idx := d.active_layer_index
  if idx < (d.layers.length : Int) - 1 then d.move_layer idx (idx + 1) else d

/-- `Document.move_layer_down`. -/
def Document.move_layer_down (d : Document) : Document :=
  let idx := d.active_layer_index
  if idx > 0 then d.move_layer idx (idx - 1) else d

/-- Opacity of a `QPainter` (`setOpacity`) as an 8-bit factor:
`⌊q * 255 + 1/2⌋.toNat` written out on `num`/`den` so that it evaluates by
kernel reduction. -/
def qtOpacityA8 (q : ℚ) : Nat :=
  (Int.fdiv (q.num * 255 * 2 + q.den) (2 * q.den)).toNat

/-- `painter.drawImage(0, 0, src)` with the painter's opacity,
`SourceOver`: pixels outside the source's extent are untouched. -/
def drawImageOver (a8 : Nat) (dst src : Image) : Image :=
  ⟨dst.w, dst.h, fun x y =>
    CairoOp.apply .over (dst.px x y)
      ((if x < src.w ∧ y < src.h then src.px x y else Pixel.clear).scale a8)⟩

/-- Index of the layer equal (by identity, i.e. id) to the given one
(`self.layers.index(layer)`). -/
def indexOfId (ls : List Layer) (i : Nat) : Nat := ls.findIdx fun l => l.id = i

/-- The removal loop of `Document.flatten_image`: remove every layer
(topmost first), recomputing each one's current index, executing each
command as it is built and collecting the commands for the macro. -/
def flattenRemove : List Layer → Document × List PrimCmd → Document × List PrimCmd
  | [], st => st
  | l :: rest, (d, acc) =>
      let cmd := PrimCmd.structRemove l (indexOfId d.layers l.id)
      flattenRemove rest (execPrim cmd d, acc ++ [cmd])

/-- `Document.flatten_image`: composite all visible layers over white,
remove every layer, add the flattened background layer at index 0, and push
the whole as one macro. -/
def Document.flatten_image (d : Document) (newId : Nat) : Document :=
  if d.layers.length < 1 then d
  else
    let flat0 : Image := ⟨d.width, d.height, fun _ _ => ⟨255, 255, 255, 255⟩⟩
    let flat := d.layers.foldl
      (fun img l => if l.visible then drawImageOver (qtOpacityA8 l.opacity) img l.image else img)
      flat0
    let st := flattenRemove d.layers.reverse (d, [])
    let newLayer := { mkLayer d.width d.height newId "Background" with image := flat }
    let addCmd := PrimCmd.structAdd newLayer 0
    let d2 := execPrim addCmd st.1
    docPush (.macroCommand (st.2 ++ [addCmd])) d2

/-- `Document.merge_layer_down`: remove the top layer, paint it onto the
layer below (capturing before/after for the canvas command), push the pair
as one macro, then emit `content_changed`. -/
def Document.merge_layer_down (d : Document) (index : Int) : Document :=
  if index ≤ 0 ∨ (d.layers.length : Int) ≤ index then d
  else
    match d.layers[index.toNat]?, d.layers[index.toNat - 1]? with
    | some top, some bottom =>
        let rm := PrimCmd.structRemove top index.toNat
        let d1 := execPrim rm d
        let before := some ((⟨0, 0, bottom.image.w, bottom.image.h⟩ : Rect), bottom.image.px)
        let newImg := drawImageOver (qtOpacityA8 top.opacity) bottom.image top.image
        let d2 := updateLayerById d1 bottom.id fun l => { l with image := newImg }
        let after := some ((⟨0, 0, newImg.w, newImg.h⟩ : Rect), newImg.px)
        let cv := PrimCmd.canvasImg bottom.id before after
        invalidateAllCaches (docPush (.macroCommand [rm, cv]) d2)
    | _, _ => d

/-- `Document.render`: render through the Cairo backend; the only document
state the call writes is the renderer's cache. -/
def Document.render (d : Document) : Image × Document :=
  let res := renderLayers d.layers d.renderer (Image.blank d.width d.height)
  (res.1, { d with renderer := res.2 })

/-- `Document.invalidate_layer_cache`. -/
def Document.invalidate_layer_cache (d : Document) (lid : Nat) : Document :=
  { d with renderer := d.renderer.invalidate lid }

/-!
## History accounting (claims C1 and C2)
-/

/-- Sum of `memory_bytes()` over both history stacks. -/
def HistoryManager.totalBytes (hm : HistoryManager) : Nat :=
  stackBytes hm.undo_stack + stackBytes hm.redo_stack

/-- The tracked-byte invariant of the history manager: the cached counter
equals the sum of `memory_bytes()` over both stacks. -/
def HistInv (hm : HistoryManager) : Prop :=
  hm.cached_memory = (hm.totalBytes : Int)

/-- The public operations of `HistoryManager`, run against the document. -/
inductive HistOp where
  | pushC (c : Cmd)
  | undoH
  | redoH
  | gotoH (i : Int)
  | clearH

/-- Run one public history operation. -/
def applyHistOp (d : Document) : HistOp → Document
  | .pushC c => docPush c d
  | .undoH => docUndo d
  | .redoH => docRedo d
  | .gotoH i => docGoto d i
  | .clearH => docClearHistory d

/-- Run a sequence of public history operations. -/
def applyHistOps (d : Document) (ops : List HistOp) : Document :=
  ops.foldl applyHistOp d

theorem stackBytes_nil : stackBytes [] = 0 := rfl

theorem stackBytes_cons (c : Cmd) (cs : List Cmd) :
    stackBytes (c :: cs) = c.bytes + stackBytes cs := by
  simp [stackBytes]

theorem stackBytes_append (a b : List Cmd) :
    stackBytes (a ++ b) = stackBytes a + stackBytes b := by
  simp [stackBytes]

theorem evictLoop_sum (b : Int) :
    ∀ (s : List Cmd) (m : Int), m = (stackBytes s : Int) →
      (evictLoop b m s).1 = (stackBytes (evictLoop b m s).2 : Int) := by
  intro s
  induction s with
  | nil => intro m hm; simpa [evictLoop] using hm
  | cons c rest ih =>
      intro m hm
      rw [evictLoop]
      split
      · exact ih _ (by rw [stackBytes_cons] at hm; push_cast at hm ⊢; omega)
      · exact hm

theorem evictLoop_spec (b : Int) :
    ∀ (s : List Cmd) (m : Int), s ≠ [] →
      ((evictLoop b m s).1 ≤ b ∨ (evictLoop b m s).2.length = 1) ∧
        (evictLoop b m s).2 ≠ [] := by
  intro s
  induction s with
  | nil => intro m hm; exact absurd rfl hm
  | cons c rest ih =>
      intro m _
      rw [evictLoop]
      split
      · rename_i hcond
        exact ih _ (by rcases hcond with ⟨_, hlen⟩; exact List.ne_nil_of_length_pos hlen)
      · rename_i hcond
        refine ⟨?_, by simp⟩
        rcases not_and_or.mp hcond with h | h
        · exact Or.inl (le_of_not_lt h)
        · have : rest = [] := by
            cases rest with
            | nil => rfl
            | cons x xs => exact absurd (by simp) h
          subst this
          exact Or.inr rfl

theorem countTrim_sum (L : Nat) :
    ∀ (s : List Cmd) (m : Int), m = (stackBytes s : Int) →
      (countTrim L m s).1 = (stackBytes (countTrim L m s).2 : Int) := by
  intro s
  induction s with
  | nil => intro m hm; simpa [countTrim] using hm
  | cons c rest ih =>
      intro m hm
      rw [countTrim]
      split
      · exact ih _ (by rw [stackBytes_cons] at hm; push_cast at hm ⊢; omega)
      · exact hm

theorem countTrim_length (L : Nat) :
    ∀ (s : List Cmd) (m : Int), (countTrim L m s).2.length ≤ L := by
  intro s
  induction s with
  | nil => intro m; simp [countTrim]
  | cons c rest ih =>
      intro m
      rw [countTrim]
      split
      · exact ih _
      · rename_i h
        show (c :: rest).length ≤ L
        omega

theorem countTrim_fst_le (L : Nat) :
    ∀ (s : List Cmd) (m : Int), (countTrim L m s).1 ≤ m := by
  intro s
  induction s with
  | nil => intro m; simp [countTrim]
  | cons c rest ih =>
      intro m
      rw [countTrim]
      split
      · calc (countTrim L (m - (Cmd.bytes c : Int)) rest).1
            ≤ m - (Cmd.bytes c : Int) := ih _
          _ ≤ m := by omega
      · exact le_refl m

theorem countTrim_of_le (L : Nat) (s : List Cmd) (m : Int) (h : s.length ≤ L) :
    countTrim L m s = (m, s) := by
  cases s with
  | nil => simp [countTrim]
  | cons c rest =>
      rw [countTrim]
      split
      · rename_i hgt; exact absurd hgt (by omega)
      · rfl

theorem evictLoop_of_le (b : Int) (s : List Cmd) (m : Int) (h : m ≤ b) :
    evictLoop b m s = (m, s) := by
  cases s with
  | nil => simp [evictLoop]
  | cons c rest =>
      rw [evictLoop]
      split
      · rename_i hgt; exact absurd hgt.1 (by omega)
      · rfl

/-- Behaviour of one `push`: the tracked-byte invariant is re-established,
the redo stack is cleared, and the byte/count bounds hold. -/
theorem push_spec (hm : HistoryManager) (c : Cmd) (hInv : HistInv hm) :
    HistInv (hm.push c) ∧
      ((hm.push c).cached_memory ≤ ((hm.push c).memory_limit : Int) ∨
        (hm.push c).undo_stack.length = 1) ∧
      (hm.push c).undo_stack.length ≤ (hm.push c).limit ∧
      (hm.push c).redo_stack = [] := by
  have hcons : hm.cached_memory + (Cmd.bytes c : Int) - (stackBytes hm.redo_stack : Int) =
      (stackBytes (hm.undo_stack ++ [c]) : Int) := by
    rw [hInv]
    unfold HistoryManager.totalBytes
    rw [stackBytes_append, stackBytes_cons, stackBytes_nil]
    push_cast
    omega
  have hev := evictLoop_sum (hm.memory_limit : Int) (hm.undo_stack ++ [c]) _ hcons
  have hspec := evictLoop_spec (hm.memory_limit : Int) (hm.undo_stack ++ [c])
    (hm.cached_memory + (Cmd.bytes c : Int) - (stackBytes hm.redo_stack : Int)) (by simp)
  rcases hEV : evictLoop (hm.memory_limit : Int)
      (hm.cached_memory + (Cmd.bytes c : Int) - (stackBytes hm.redo_stack : Int))
      (hm.undo_stack ++ [c]) with ⟨ec, es⟩
  rw [hEV] at hev hspec
  dsimp only at hev hspec
  rcases hTR : countTrim hm.limit ec es with ⟨tc, ts⟩
  have htr := countTrim_sum hm.limit es ec hev
  have htrle := countTrim_fst_le hm.limit es ec
  have htlen := countTrim_length hm.limit es ec
  rw [hTR] at htr htrle htlen
  dsimp only at htr htrle htlen
  have hpush : hm.push c =
      { hm with undo_stack := ts, redo_stack := [], cached_memory := tc } := by
    unfold HistoryManager.push
    simp only [hEV, hTR]
  rw [hpush]
  refine ⟨?_, ?_, htlen, rfl⟩
  · show tc = ((stackBytes ts + stackBytes [] : Nat) : Int)
    rw [stackBytes_nil]
    simpa using htr
  rcases hspec.1 with hle | hone
  · exact Or.inl (le_trans htrle hle)
  · by_cases hlim : 1 ≤ hm.limit
    · right
      have heq := (countTrim_of_le hm.limit es ec (by omega)).symm.trans hTR
      injection heq with h1 h2
      show ts.length = 1
      rw [← h2]
      exact hone
    · left
      have hnil : ts = [] := List.eq_nil_of_length_eq_zero (by omega)
      show tc ≤ _
      rw [htr, hnil, stackBytes_nil]
      positivity

/-- A claim C1 helper: pushing preserves the limit fields. -/
theorem push_fields (hm : HistoryManager) (c : Cmd) :
    (hm.push c).limit = hm.limit ∧ (hm.push c).memory_limit = hm.memory_limit :=
  ⟨rfl, rfl⟩

/-- Pushing a sequence of commands preserves the tracked-byte invariant. -/
theorem pushes_inv (cs : List Cmd) :
    ∀ (d : Document), HistInv d.history →
      HistInv ((cs.foldl (fun d c => docPush c d) d).history) := by
  induction cs with
  | nil => intro d h; exact h
  | cons c rest ih =>
      intro d h
      exact ih (docPush c d) (push_spec d.history c h).1

/-- Claim C1: after any sequence of pushes (byte budget `B = memory_limit`,
count limit `L = limit`), once the final push completes the tracked bytes
are at most `B` unless the undo stack holds exactly one entry, and the undo
stack length is at most `L`.  Since the sequence of earlier pushes is
arbitrary, this covers the state after every push of every sequence. -/
theorem history_eviction_bound (d : Document) (cs : List Cmd) (c : Cmd)
    (hInv : HistInv d.history) :
    let d' := docPush c (cs.foldl (fun d c => docPush c d) d)
    (d'.history.cached_memory ≤ (d'.history.memory_limit : Int) ∨
      d'.history.undo_stack.length = 1) ∧
    d'.history.undo_stack.length ≤ d'.history.limit := by
  intro d'
  have h := push_spec (cs.foldl (fun d c => docPush c d) d).history c
    (pushes_inv cs d hInv)
  exact ⟨h.2.1, h.2.2.1⟩

/-- Witness for `history_eviction_bound` at a concrete input. -/
theorem history_eviction_bound_witness :
    let d' := docPush (.prim (.structMove 0 1))
      ([Cmd.prim (.structMove 1 0)].foldl (fun d c => docPush c d) (mkDocument 2 2))
    (d'.history.cached_memory ≤ (d'.history.memory_limit : Int) ∨
      d'.history.undo_stack.length = 1) ∧
    d'.history.undo_stack.length ≤ d'.history.limit :=
  history_eviction_bound (mkDocument 2 2) [Cmd.prim (.structMove 1 0)]
    (.prim (.structMove 0 1)) rfl

theorem set_active_layer_history (d : Document) (i : Int) :
    (d.set_active_layer i).history = d.history := by
  unfold Document.set_active_layer
  split <;> rfl

theorem invalidateAllCaches_history (d : Document) :
    (invalidateAllCaches d).history = d.history := rfl

theorem updateLayerById_history (d : Document) (lid : Nat) (f : Layer → Layer) :
    (updateLayerById d lid f).history = d.history := rfl

theorem updateSelectionRegion_history (d : Document) :
    (updateSelectionRegion d).history = d.history := rfl

/-- Running a primitive command never touches the history manager. -/
theorem execPrim_history (c : PrimCmd) (d : Document) :
    (execPrim c d).history = d.history := by
  cases c with
  | canvasImg lid bef aft =>
      rcases aft with _ | ⟨r, data⟩
      · rfl
      · simp only [execPrim]
        split <;> rfl
  | canvasMask lid bef aft =>
      rcases aft with _ | ⟨r, data⟩
      · rfl
      · simp only [execPrim]
        split <;> rfl
  | layerProp lid oldv newv notifies =>
      simp only [execPrim]
      split <;> rfl
  | structAdd layer index =>
      simp only [execPrim]
      rw [set_active_layer_history]
  | structRemove layer index =>
      simp only [execPrim]
      split
      · split
        · split
          · rw [set_active_layer_history]
          · rfl
        · rfl
      · rfl
  | structMove index previous =>
      simp only [execPrim]
      split
      · split
        · split
          · rw [set_active_layer_history]; rfl
          · rfl
        · rfl
      · rfl
  | docProp oldv newv notifies =>
      simp only [execPrim]
      split <;> rfl
  | selection oldm newm => rfl

/-- Undoing a primitive command never touches the history manager. -/
theorem undoPrim_history (c : PrimCmd) (d : Document) :
    (undoPrim c d).history = d.history := by
  cases c with
  | canvasImg lid bef aft =>
      rcases bef with _ | ⟨r, data⟩
      · rfl
      · simp only [undoPrim]
        split <;> rfl
  | canvasMask lid bef aft =>
      rcases bef with _ | ⟨r, data⟩
      · rfl
      · simp only [undoPrim]
        split <;> rfl
  | layerProp lid oldv newv notifies =>
      simp only [undoPrim]
      split <;> rfl
  | structAdd layer index =>
      simp only [undoPrim]
      split
      · split
        · rw [set_active_layer_history]
        · rfl
      · rfl
  | structRemove layer index =>
      simp only [undoPrim]
      rw [set_active_layer_history]
  | structMove index previous =>
      simp only [undoPrim]
      split
      · split
        · split
          · rw [set_active_layer_history]; rfl
          · rfl
        · rfl
      · rfl
  | docProp oldv newv notifies =>
      simp only [undoPrim]
      split <;> rfl
  | selection oldm newm => rfl

theorem foldl_execPrim_history (cs : List PrimCmd) :
    ∀ (d : Document), (cs.foldl (fun d p => execPrim p d) d).history = d.history := by
  induction cs with
  | nil => intro d; rfl
  | cons c rest ih =>
      intro d
      rw [List.foldl_cons, ih, execPrim_history]

theorem foldl_undoPrim_history (cs : List PrimCmd) :
    ∀ (d : Document), (cs.foldl (fun d p => undoPrim p d) d).history = d.history := by
  induction cs with
  | nil => intro d; rfl
  | cons c rest ih =>
      intro d
      rw [List.foldl_cons, ih, undoPrim_history]

/-- `Command.execute` never touches the history manager. -/
theorem execC_history (c : Cmd) (d : Document) :
    (Cmd.execC c d).history = d.history := by
  cases c with
  | prim p => exact execPrim_history p d
  | macroCommand cs => exact foldl_execPrim_history cs d

/-- `Command.undo` never touches the history manager. -/
theorem undoC_history (c : Cmd) (d : Document) :
    (Cmd.undoC c d).history = d.history := by
  cases c with
  | prim p => exact undoPrim_history p d
  | macroCommand cs => exact foldl_undoPrim_history cs.reverse d

/-- `undo()` preserves the tracked-byte invariant: it only moves the popped
command from the undo stack to the redo stack. -/
theorem docUndo_inv (d : Document) (h : HistInv d.history) :
    HistInv (docUndo d).history := by
  unfold docUndo
  rcases hL : d.history.undo_stack.getLast? with _ | c
  · exact h
  · dsimp only
    rw [undoC_history]
    unfold HistInv HistoryManager.totalBytes at h ⊢
    dsimp only
    have hsplit := List.dropLast_append_getLast? c (by rw [hL]; rfl)
    rw [← hsplit, stackBytes_append, stackBytes_cons, stackBytes_nil] at h
    rw [stackBytes_append, stackBytes_cons, stackBytes_nil]
    push_cast at h ⊢
    omega

/-- `redo()` preserves the tracked-byte invariant. -/
theorem docRedo_inv (d : Document) (h : HistInv d.history) :
    HistInv (docRedo d).history := by
  unfold docRedo
  rcases hL : d.history.redo_stack.getLast? with _ | c
  · exact h
  · dsimp only
    rw [execC_history]
    unfold HistInv HistoryManager.totalBytes at h ⊢
    dsimp only
    have hsplit := List.dropLast_append_getLast? c (by rw [hL]; rfl)
    rw [← hsplit, stackBytes_append, stackBytes_cons, stackBytes_nil] at h
    rw [stackBytes_append, stackBytes_cons, stackBytes_nil]
    push_cast at h ⊢
    omega

theorem undoTimes_inv (n : Nat) :
    ∀ (d : Document), HistInv d.history → HistInv (undoTimes n d).history := by
  induction n with
  | zero => intro d h; exact h
  | succ k ih => intro d h; exact ih (docUndo d) (docUndo_inv d h)

/-- `goto_index` preserves the tracked-byte invariant (it is a replay of
`undo`). -/
theorem docGoto_inv (d : Document) (i : Int) (h : HistInv d.history) :
    HistInv (docGoto d i).history := by
  simp only [docGoto]
  split
  · exact h
  · exact undoTimes_inv _ d h

/-- Claim C2: the tracked byte counter equals the sum of `memory_bytes()`
over both stacks at every point between public history operations — from
any state satisfying the invariant, any sequence of `push` (of any command,
including a `CanvasCommand` whose bytes grew when `capture_after` was
called before the push), `undo`, `redo`, `goto_index` and `clear` leaves it
satisfied. -/
theorem cached_bytes_invariant (d : Document) (ops : List HistOp)
    (h : HistInv d.history) : HistInv (applyHistOps d ops).history := by
  induction ops generalizing d with
  | nil => exact h
  | cons op rest ih =>
      refine ih (applyHistOp d op) ?_
      cases op with
      | pushC c => exact (push_spec d.history c h).1
      | undoH => exact docUndo_inv d h
      | redoH => exact docRedo_inv d h
      | gotoH i => exact docGoto_inv d i h
      | clearH => show HistInv d.history.clearAll; exact rfl

/-- Witness for `cached_bytes_invariant`: a capture-then-push lifecycle of a
canvas command followed by undo and redo, from a fresh document. -/
theorem cached_bytes_invariant_witness :
    HistInv (applyHistOps (mkDocument 3 3)
      [.pushC (.prim (.canvasImg 0 (some (⟨0, 0, 3, 3⟩, fun _ _ => Pixel.clear))
          (some (⟨0, 0, 3, 3⟩, fun _ _ => Pixel.clear)))),
        .undoH, .redoH, .gotoH 0, .clearH]).history :=
  cached_bytes_invariant (mkDocument 3 3) _ rfl

/-!
## Guarded no-ops (claim C9)
-/

/-- Claim C9: when a precondition fails — `delete_layer` on an out-of-range
index or with at most one layer, `move_layer` with an identical or invalid
index pair, and `feather/expand/contract_selection` without a selection or
with a non-positive radius/amount — the operation silently returns the
document unchanged (so in particular the layers, the selection mask and
both history stacks are untouched and nothing is pushed). -/
theorem ops_noop_on_failed_preconditions (ks : SelKernels) (d : Document)
    (i j r n m : Int) :
    (¬ (0 ≤ i ∧ i < (d.layers.length : Int) ∧ 1 < d.layers.length) →
      d.delete_layer i = d) ∧
    ((i = j ∨ ¬ (0 ≤ i ∧ i < (d.layers.length : Int) ∧
        0 ≤ j ∧ j < (d.layers.length : Int))) → d.move_layer i j = d) ∧
    (d.has_selection = false ∨ r ≤ 0 → Document.feather_selection ks d r = d) ∧
    (d.has_selection = false ∨ n ≤ 0 → Document.expand_selection ks d n = d) ∧
    (d.has_selection = false ∨ m ≤ 0 → Document.contract_selection ks d m = d) := by
  refine ⟨?_, ?_, ?_, ?_, ?_⟩
  · intro h
    unfold Document.delete_layer
    rw [if_neg h]
  · intro h
    unfold Document.move_layer
    by_cases heq : i = j
    · rw [if_pos heq]
    · rw [if_neg heq]
      rcases h with h | h
      · exact absurd h heq
      · rw [if_neg h]
  · intro h
    unfold Document.feather_selection
    rw [if_pos h]
  · intro h
    unfold Document.expand_selection
    rw [if_pos h]
  · intro h
    unfold Document.contract_selection
    rw [if_pos h]

/-- Witness for `ops_noop_on_failed_preconditions` on a fresh document. -/
theorem ops_noop_witness :
    (mkDocument 2 2).delete_layer 5 = mkDocument 2 2 ∧
    (mkDocument 2 2).move_layer 5 5 = mkDocument 2 2 ∧
    Document.feather_selection idKernels (mkDocument 2 2) 0 = mkDocument 2 2 ∧
    Document.expand_selection idKernels (mkDocument 2 2) 0 = mkDocument 2 2 ∧
    Document.contract_selection idKernels (mkDocument 2 2) 0 = mkDocument 2 2 := by
  have h := ops_noop_on_failed_preconditions idKernels (mkDocument 2 2) 5 5 0 0 0
  exact ⟨h.1 (by decide), h.2.1 (Or.inl rfl), h.2.2.1 (Or.inr (by decide)),
    h.2.2.2.1 (Or.inr (by decide)), h.2.2.2.2 (Or.inr (by decide))⟩

/-!
## Selection thresholding (claims C4 and C7)
-/

theorem maskNonzeroB_iff (m : AMask) :
    maskNonzeroB m = true ↔ ∃ x y, x < m.w ∧ y < m.h ∧ 0 < m.px x y := by
  unfold maskNonzeroB
  rw [List.any_eq_true]
  constructor
  · rintro ⟨y, hy, hx⟩
    rw [List.mem_range] at hy
    rw [List.any_eq_true] at hx
    obtain ⟨x, hxm, hpx⟩ := hx
    rw [List.mem_range] at hxm
    refine ⟨x, y, hxm, hy, ?_⟩
    have := bne_iff_ne.mp hpx
    omega
  · rintro ⟨x, y, hx, hy, hpx⟩
    refine ⟨y, List.mem_range.mpr hy, ?_⟩
    rw [List.any_eq_true]
    refine ⟨x, List.mem_range.mpr hx, ?_⟩
    exact bne_iff_ne.mpr (by omega)

theorem updateSelectionRegion_region (d : Document) (x y : Nat) :
    (updateSelectionRegion d).selection_region x y = true ↔
      x < d.selection_mask.w ∧ y < d.selection_mask.h ∧ 0 < d.selection_mask.px x y := by
  show (decide (x < d.selection_mask.w) && decide (y < d.selection_mask.h) &&
      (d.selection_mask.px x y != 0)) = true ↔ _
  rw [Bool.and_eq_true, Bool.and_eq_true]
  rw [decide_eq_true_iff, decide_eq_true_iff, bne_iff_ne]
  constructor
  · rintro ⟨⟨h1, h2⟩, h3⟩; exact ⟨h1, h2, by omega⟩
  · rintro ⟨h1, h2, h3⟩; exact ⟨⟨h1, h2⟩, by omega⟩

/-- Claim C4: after every selection combination (`combine_selection` with
replace / add / subtract / intersect, and its `set_selection` wrapper), the
recomputed `has_selection` flag is true iff some pixel of the stored mask is
positive, and the recomputed traversable region consists exactly of the
in-bounds pixels whose mask value is positive. -/
theorem selection_recompute_thresholds (d : Document) (m : AMask) (r : Rect)
    (op : SelOp) :
    let d1 := d.combine_selection m op
    let d2 := d.set_selection r op
    (d1.has_selection = true ↔
      ∃ x y, x < d1.selection_mask.w ∧ y < d1.selection_mask.h ∧
        0 < d1.selection_mask.px x y) ∧
    (∀ x y, d1.selection_region x y = true ↔
      x < d1.selection_mask.w ∧ y < d1.selection_mask.h ∧
        0 < d1.selection_mask.px x y) ∧
    (d2.has_selection = true ↔
      ∃ x y, x < d2.selection_mask.w ∧ y < d2.selection_mask.h ∧
        0 < d2.selection_mask.px x y) ∧
    (∀ x y, d2.selection_region x y = true ↔
      x < d2.selection_mask.w ∧ y < d2.selection_mask.h ∧
        0 < d2.selection_mask.px x y) := by
  refine ⟨maskNonzeroB_iff _, fun x y => updateSelectionRegion_region _ x y,
    maskNonzeroB_iff _, fun x y => updateSelectionRegion_region _ x y⟩

/-- Claim C7: on a 100×100 document with an empty selection,
`set_selection(rect(10,10,20,20), replace)` followed by
`set_selection(rect(20,20,20,20), add)` selects (15,15) and (25,25) and not
(5,5), both in the stored mask values and in the derived region. -/
theorem selection_combine_concrete :
    0 < (((mkDocument 100 100).set_selection ⟨10, 10, 20, 20⟩ .replace).set_selection
        ⟨20, 20, 20, 20⟩ .add).selection_mask.px 15 15 ∧
    0 < (((mkDocument 100 100).set_selection ⟨10, 10, 20, 20⟩ .replace).set_selection
        ⟨20, 20, 20, 20⟩ .add).selection_mask.px 25 25 ∧
    (((mkDocument 100 100).set_selection ⟨10, 10, 20, 20⟩ .replace).set_selection
        ⟨20, 20, 20, 20⟩ .add).selection_mask.px 5 5 = 0 ∧
    (((mkDocument 100 100).set_selection ⟨10, 10, 20, 20⟩ .replace).set_selection
        ⟨20, 20, 20, 20⟩ .add).selection_region 15 15 = true ∧
    (((mkDocument 100 100).set_selection ⟨10, 10, 20, 20⟩ .replace).set_selection
        ⟨20, 20, 20, 20⟩ .add).selection_region 25 25 = true ∧
    (((mkDocument 100 100).set_selection ⟨10, 10, 20, 20⟩ .replace).set_selection
        ⟨20, 20, 20, 20⟩ .add).selection_region 5 5 = false := by
  decide

/-!
## The compositor (claims C10, C8, C6)
-/

/-- Claim C10: `Document.render` leaves every observable document field —
dimensions, the layer list (hence ids, order, every buffer, mask and
display property), the selection state and both history stacks — unchanged;
only the renderer's cache component of the state is updated. -/
theorem render_preserves_document_state (d : Document) :
    (d.render).2.width = d.width ∧ (d.render).2.height = d.height ∧
    (d.render).2.layers = d.layers ∧
    (d.render).2.active_layer_index = d.active_layer_index ∧
    (d.render).2.selection_mask = d.selection_mask ∧
    (d.render).2.has_selection = d.has_selection ∧
    (d.render).2.selection_region = d.selection_region ∧
    (d.render).2.history = d.history :=
  ⟨rfl, rfl, rfl, rfl, rfl, rfl, rfl, rfl⟩

/-- Claim C8: an opaque white bottom layer under an opaque black top layer
at opacity 0.5 in normal blend mode renders a centre pixel of 127-or-128 in
every colour channel with alpha 255. -/
theorem compositing_concrete :
    let bottom : Layer := { mkLayer 100 100 0 "Background" with
      image := ⟨100, 100, fun _ _ => ⟨255, 255, 255, 255⟩⟩ }
    let top : Layer := { mkLayer 100 100 1 "Layer 1" with
      image := ⟨100, 100, fun _ _ => ⟨0, 0, 0, 255⟩⟩, opacity := rhalf }
    let d := { mkDocument 100 100 with layers := [bottom, top] }
    let p := (d.render).1.px 50 50
    (p.b = 127 ∨ p.b = 128) ∧ (p.g = 127 ∨ p.g = 128) ∧
      (p.r = 127 ∨ p.r = 128) ∧ p.a = 255 := by
  decide

theorem dget_dset_self (l : List (Nat × β)) (k : Nat) (v : β) :
    dget (dset l k v) k = some v := by
  induction l with
  | nil => simp [dget, dset]
  | cons p rest ih =>
      obtain ⟨k', v'⟩ := p
      by_cases h : k' = k
      · simp [dget, dset, h]
      · simp [dget, dset, h, ih]

theorem dget_dset_ne (l : List (Nat × β)) (k k' : Nat) (v : β) (h : k' ≠ k) :
    dget (dset l k v) k' = dget l k' := by
  have hkk : ¬ (k = k') := fun hh => h hh.symm
  induction l with
  | nil => simp [dget, dset, hkk]
  | cons p rest ih =>
      obtain ⟨k0, v0⟩ := p
      by_cases h0 : k0 = k
      · subst h0
        simp [dget, dset, hkk]
      · simp [dget, dset, h0, ih]

/-- The effective surface the renderer would use for a buffer `img` filed
under `lid`: the cached surface when current, the buffer otherwise. -/
def effImageAt (r : RState) (lid : Nat) (img : Image) : Image :=
  match dget r.cache lid with
  | some sv => if sv.2 = r.version lid then sv.1 else img
  | none => img

/-- The effective surface of a layer. -/
def effImage (r : RState) (l : Layer) : Image := effImageAt r l.id l.image

theorem getLayerSurface_fst (r : RState) (l : Layer) :
    (getLayerSurface r l).1 = effImage r l := by
  unfold getLayerSurface effImage effImageAt
  rcases dget r.cache l.id with _ | sv
  · rfl
  · dsimp only
    split <;> rfl

theorem getLayerSurface_versions (r : RState) (l : Layer) :
    (getLayerSurface r l).2.versions = r.versions := by
  unfold getLayerSurface
  rcases dget r.cache l.id with _ | sv
  · rfl
  · dsimp only
    split <;> rfl

theorem version_versions_eq {r r' : RState} (h : r'.versions = r.versions)
    (lid : Nat) : r'.version lid = r.version lid := by
  unfold RState.version
  rw [h]

theorem getLayerSurface_cache_self (r : RState) (l : Layer) :
    dget (getLayerSurface r l).2.cache l.id = some (effImage r l, r.version l.id) := by
  unfold getLayerSurface effImage effImageAt
  rcases h : dget r.cache l.id with _ | sv
  · dsimp only
    rw [dget_dset_self]
  · dsimp only
    split
    · rename_i hv
      rw [h, ← hv]
    · rw [dget_dset_self]

theorem getLayerSurface_cache_ne (r : RState) (l : Layer) (lid : Nat)
    (h : lid ≠ l.id) :
    dget (getLayerSurface r l).2.cache lid = dget r.cache lid := by
  unfold getLayerSurface
  rcases dget r.cache l.id with _ | sv
  · dsimp only
    rw [dget_dset_ne _ _ _ _ h]
  · dsimp only
    split
    · rfl
    · rw [dget_dset_ne _ _ _ _ h]

theorem effImageAt_getLayerSurface_ne (r : RState) (l : Layer) (lid : Nat)
    (img : Image) (h : lid ≠ l.id) :
    effImageAt (getLayerSurface r l).2 lid img = effImageAt r lid img := by
  unfold effImageAt
  rw [getLayerSurface_cache_ne r l lid h,
    version_versions_eq (getLayerSurface_versions r l) lid]

/-- A cache entry recorded at the current version pins the effective
surface, whatever the layer's buffer now holds. -/
theorem effImageAt_of_cache_current (r : RState) (lid : Nat) (s : Image)
    (h : dget r.cache lid = some (s, r.version lid)) (img : Image) :
    effImageAt r lid img = s := by
  unfold effImageAt
  rw [h]
  simp

theorem invalidate_version_self (r : RState) (lid : Nat) :
    (r.invalidate lid).version lid = r.version lid + 1 := by
  unfold RState.invalidate RState.version
  rcases h : dget r.versions lid with _ | v
  · dsimp only
    rw [dget_dset_self]
    rfl
  · dsimp only
    rw [dget_dset_self]
    rfl

theorem invalidate_version_ne (r : RState) (lid lid' : Nat) (h : lid' ≠ lid) :
    (r.invalidate lid).version lid' = r.version lid' := by
  unfold RState.invalidate RState.version
  rcases dget r.versions lid with _ | v
  · dsimp only
    rw [dget_dset_ne _ _ _ _ h]
  · dsimp only
    rw [dget_dset_ne _ _ _ _ h]

theorem invalidate_cache (r : RState) (lid : Nat) :
    (r.invalidate lid).cache = r.cache := by
  unfold RState.invalidate
  rcases dget r.versions lid with _ | v <;> rfl

/-- Invalidating a layer whose cache entry is at the current version makes
the renderer fall back to the layer's buffer. -/
theorem effImageAt_invalidate_self (r : RState) (lid : Nat)
    (h : ∀ s v, dget r.cache lid = some (s, v) → v = r.version lid)
    (img : Image) : effImageAt (r.invalidate lid) lid img = img := by
  unfold effImageAt
  rw [invalidate_cache, invalidate_version_self]
  rcases hc : dget r.cache lid with _ | sv
  · rfl
  · dsimp only
    rw [if_neg]
    have := h sv.1 sv.2 (by rw [hc])
    omega

theorem effImageAt_invalidate_ne (r : RState) (lid lid' : Nat)
    (h : lid' ≠ lid) (img : Image) :
    effImageAt (r.invalidate lid) lid' img = effImageAt r lid' img := by
  unfold effImageAt
  rw [invalidate_cache, invalidate_version_ne _ _ _ h]

/-- Cache-free compositing against a fixed renderer state: the reference
function `renderLayers` is proven to compute. -/
def pureOut (r : RState) : List Layer → Image → Image
  | [], out => out
  | l :: ls, out =>
      if l.visible = false then pureOut r ls out
      else if l.is_adjustment then pureOut r ls (l.effect out)
      else
        let surf := match l.mask with
          | some m => maskedSurface (effImage r l) m
          | none => effImage r l
        pureOut r ls (compositeStep (qtToCairo l.blend_mode) (opacityA8 l.opacity) out surf)

/-- Layers that render identically: same display properties, and the same
effective surface whenever the surface is consulted. -/
def rEquiv (r r' : RState) (l l' : Layer) : Prop :=
  l.visible = l'.visible ∧ l.is_adjustment = l'.is_adjustment ∧
  l.effect = l'.effect ∧ l.mask = l'.mask ∧ l.blend_mode = l'.blend_mode ∧
  l.opacity = l'.opacity ∧
  (l.visible = true → l.is_adjustment = false → effImage r l = effImage r' l')

theorem pureOut_congr {r r' : RState} :
    ∀ {ls ls' : List Layer}, List.Forall₂ (rEquiv r r') ls ls' →
      ∀ out, pureOut r ls out = pureOut r' ls' out := by
  intro ls ls' hrel
  induction hrel with
  | nil => intro out; rfl
  | cons hab hrest ih =>
      intro out
      rename_i a b as bs
      obtain ⟨hv, hadj, heff, hmask, hblend, hop, heq⟩ := hab
      unfold pureOut
      rw [← hv, ← hadj, ← heff, ← hmask, ← hblend, ← hop]
      by_cases h1 : a.visible = false
      · rw [if_pos h1, if_pos h1]
        exact ih out
      · rw [if_neg h1, if_neg h1]
        by_cases h2 : a.is_adjustment
        · rw [if_pos h2, if_pos h2]
          exact ih _
        · rw [if_neg h2, if_neg h2]
          rw [heq (by simpa using h1) (by simpa using h2)]
          exact ih _

theorem renderLayers_versions (ls : List Layer) :
    ∀ (r : RState) (out : Image), (renderLayers ls r out).2.versions = r.versions := by
  induction ls with
  | nil => intro r out; rfl
  | cons l rest ih =>
      intro r out
      unfold renderLayers
      by_cases h1 : l.visible = false
      · rw [if_pos h1]; exact ih r out
      · rw [if_neg h1]
        by_cases h2 : l.is_adjustment
        · rw [if_pos h2]; exact ih r _
        · rw [if_neg h2]
          dsimp only
          rw [ih]
          exact getLayerSurface_versions r l

theorem renderLayers_cache_ne (ls : List Layer) :
    ∀ (r : RState) (out : Image) (lid : Nat), (∀ l ∈ ls, l.id ≠ lid) →
      dget (renderLayers ls r out).2.cache lid = dget r.cache lid := by
  induction ls with
  | nil => intro r out lid _; rfl
  | cons l rest ih =>
      intro r out lid hni
      unfold renderLayers
      by_cases h1 : l.visible = false
      · rw [if_pos h1]
        exact ih r out lid fun x hx => hni x (List.mem_cons_of_mem _ hx)
      · rw [if_neg h1]
        by_cases h2 : l.is_adjustment
        · rw [if_pos h2]
          exact ih r _ lid fun x hx => hni x (List.mem_cons_of_mem _ hx)
        · rw [if_neg h2]
          dsimp only
          rw [ih _ _ lid fun x hx => hni x (List.mem_cons_of_mem _ hx)]
          exact getLayerSurface_cache_ne r l lid
            (fun hh => hni l (List.mem_cons_self _ _) hh.symm)

/-- After a render, every visible non-adjustment layer's cache entry holds
its pre-render effective surface at the pre-render version counter. -/
theorem renderLayers_cache_processed (ls : List Layer) :
    ∀ (r : RState) (out : Image), (ls.map Layer.id).Nodup →
      ∀ l ∈ ls, l.visible = true → l.is_adjustment = false →
        dget (renderLayers ls r out).2.cache l.id =
          some (effImage r l, r.version l.id) := by
  induction ls with
  | nil => intro r out _ l hl; exact absurd hl (List.not_mem_nil l)
  | cons l0 rest ih =>
      intro r out hnd l hl hvis hadj
      have hnd' : (rest.map Layer.id).Nodup := (List.nodup_cons.mp hnd).2
      have hhead : l0.id ∉ rest.map Layer.id := (List.nodup_cons.mp hnd).1
      unfold renderLayers
      rcases List.mem_cons.mp hl with heq | hmem
      · subst heq
        rw [if_neg (by simp [hvis]), if_neg (by simp [hadj])]
        dsimp only
        rw [renderLayers_cache_ne rest _ _ l.id
          (fun x hx hxid => hhead (hxid ▸ List.mem_map_of_mem Layer.id hx))]
        exact getLayerSurface_cache_self r l
      · by_cases h1 : l0.visible = false
        · rw [if_pos h1]; exact ih r out hnd' l hmem hvis hadj
        · rw [if_neg h1]
          by_cases h2 : l0.is_adjustment
          · rw [if_pos h2]; exact ih r _ hnd' l hmem hvis hadj
          · rw [if_neg h2]
            dsimp only
            rw [ih _ _ hnd' l hmem hvis hadj]
            have hne : l.id ≠ l0.id := by
              intro hh
              exact hhead (hh ▸ List.mem_map_of_mem Layer.id hmem)
            unfold effImage
            rw [effImageAt_getLayerSurface_ne r l0 l.id l.image hne,
              version_versions_eq (getLayerSurface_versions r l0) l.id]

/-- The rendered output equals the cache-free composite of the pre-render
effective surfaces. -/
theorem renderLayers_fst (ls : List Layer) :
    ∀ (r : RState) (out : Image), (ls.map Layer.id).Nodup →
      (renderLayers ls r out).1 = pureOut r ls out := by
  induction ls with
  | nil => intro r out _; rfl
  | cons l rest ih =>
      intro r out hnd
      have hnd' : (rest.map Layer.id).Nodup := (List.nodup_cons.mp hnd).2
      have hhead : l.id ∉ rest.map Layer.id := (List.nodup_cons.mp hnd).1
      unfold renderLayers pureOut
      by_cases h1 : l.visible = false
      · rw [if_pos h1, if_pos h1]; exact ih r out hnd'
      · rw [if_neg h1, if_neg h1]
        by_cases h2 : l.is_adjustment
        · rw [if_pos h2, if_pos h2]; exact ih r _ hnd'
        · rw [if_neg h2, if_neg h2]
          dsimp only
          rw [ih _ _ hnd']
          rw [getLayerSurface_fst r l]
          refine pureOut_congr ?_ _
          have hrefl : ∀ x ∈ rest, rEquiv (getLayerSurface r l).2 r x x := by
            intro x hx
            refine ⟨rfl, rfl, rfl, rfl, rfl, rfl, fun _ _ => ?_⟩
            unfold effImage
            exact effImageAt_getLayerSurface_ne r l x.id x.image
              (fun hh => hhead (hh ▸ List.mem_map_of_mem Layer.id hx))
          exact List.forall₂_same.mpr hrefl

/-- Replace the image buffer of the layer at position `i` (a caller mutating
`layer.image` in place). -/
def setImageAt : List Layer → Nat → Image → List Layer
  | [], _, _ => []
  | l :: ls, 0, img => { l with image := img } :: ls
  | l :: ls, n + 1, img => l :: setImageAt ls n img

theorem setImageAt_map_id (img : Image) :
    ∀ (ls : List Layer) (i : Nat), (setImageAt ls i img).map Layer.id = ls.map Layer.id := by
  intro ls
  induction ls with
  | nil => intro i; rfl
  | cons l rest ih =>
      intro i
      cases i with
      | zero => rfl
      | succ n => simp [setImageAt, ih]

theorem mem_setImageAt (img : Image) :
    ∀ (ls : List Layer) (i : Nat) (x : Layer), x ∈ setImageAt ls i img →
      x ∈ ls ∨ ∃ l0, ls[i]? = some l0 ∧ x = { l0 with image := img } := by
  intro ls
  induction ls with
  | nil => intro i x hx; exact absurd hx (List.not_mem_nil x)
  | cons l rest ih =>
      intro i x hx
      cases i with
      | zero =>
          rcases List.mem_cons.mp hx with heq | hmem
          · exact Or.inr ⟨l, by simp, heq⟩
          · exact Or.inl (List.mem_cons_of_mem _ hmem)
      | succ n =>
          rcases List.mem_cons.mp hx with heq | hmem
          · exact Or.inl (heq ▸ List.mem_cons_self _ _)
          · rcases ih n x hmem with h | ⟨l0, hl0, hximg⟩
            · exact Or.inl (List.mem_cons_of_mem _ h)
            · exact Or.inr ⟨l0, by simpa using hl0, hximg⟩

/-- The positional render equivalence between a list with one buffer
replaced and the original, given that every layer's effective surface under
`r'` ignores the current buffer and equals its effective surface under
`r`. -/
theorem forall2_setImageAt (r' r : RState) (img : Image) :
    ∀ (ls : List Layer) (i : Nat),
      (∀ l ∈ ls, l.visible = true → l.is_adjustment = false →
        ∀ im, effImageAt r' l.id im = effImage r l) →
      List.Forall₂ (rEquiv r' r) (setImageAt ls i img) ls := by
  intro ls
  induction ls with
  | nil => intro i _; exact List.Forall₂.nil
  | cons l rest ih =>
      intro i hpin
      have hl := hpin l (List.mem_cons_self _ _)
      have hrest : ∀ x ∈ rest, x.visible = true → x.is_adjustment = false →
          ∀ im, effImageAt r' x.id im = effImage r x :=
        fun x hx => hpin x (List.mem_cons_of_mem _ hx)
      cases i with
      | zero =>
          refine List.Forall₂.cons ⟨rfl, rfl, rfl, rfl, rfl, rfl, fun hv ha => hl hv ha img⟩ ?_
          have := ih 0 hrest
          -- same-list tail: setImageAt at index 0 leaves the tail untouched,
          -- so we need the reflexive Forall₂ on `rest`
          exact List.forall₂_same.mpr fun x hx =>
            ⟨rfl, rfl, rfl, rfl, rfl, rfl, fun hv ha => hrest x hx hv ha x.image⟩
      | succ n =>
          exact List.Forall₂.cons
            ⟨rfl, rfl, rfl, rfl, rfl, rfl, fun hv ha => hl hv ha l.image⟩ (ih n hrest)

/-- Claim C6: rendering, then mutating one layer's buffer WITHOUT
invalidating it, renders the same image again (stale by design); after
`invalidate` of that layer the next render equals a render with all caches
cleared, hence reflects the mutation.  The hypotheses state the standing
Document invariants: layer ids are unique, and the starting cache is
faithful (every current cache entry holds the layer's buffer — the
documented obligation of callers who mutate buffers). -/
theorem cache_staleness_contract (d : Document) (i : Nat) (img : Image)
    (hi : i < d.layers.length)
    (hnd : (d.layers.map Layer.id).Nodup)
    (hok : ∀ l ∈ d.layers, effImage d.renderer l = l.image) :
    let p1 := d.render
    let d2 : Document := { p1.2 with layers := setImageAt p1.2.layers i img }
    let p2 := d2.render
    let d3 := p2.2.invalidate_layer_cache (d.layers[i].id)
    let p3 := d3.render
    p2.1 = p1.1 ∧
    p3.1 = (renderLayers d3.layers RState.empty (Image.blank d3.width d3.height)).1 := by
  intro p1 d2 p2 d3 p3
  have hids2 : (setImageAt d.layers i img).map Layer.id = d.layers.map Layer.id :=
    setImageAt_map_id img d.layers i
  have hnd2 : ((setImageAt d.layers i img).map Layer.id).Nodup := by
    rw [hids2]; exact hnd
  set ls := d.layers with hls
  set r0 := d.renderer with hr0
  set bl := Image.blank d.width d.height with hbl
  set ls2 := setImageAt ls i img with hls2
  set r1 := (renderLayers ls r0 bl).2 with hr1
  -- the effective surface of every processed layer is pinned after render 1
  have hpin1 : ∀ l ∈ ls, l.visible = true → l.is_adjustment = false →
      ∀ im, effImageAt r1 l.id im = effImage r0 l := by
    intro l hl hv ha im
    refine effImageAt_of_cache_current r1 l.id (effImage r0 l) ?_ im
    rw [version_versions_eq (renderLayers_versions ls r0 bl) l.id]
    exact renderLayers_cache_processed ls r0 bl hnd l hl hv ha
  have hout2 : p2.1 = p1.1 := by
    show (renderLayers ls2 r1 bl).1 = (renderLayers ls r0 bl).1
    rw [renderLayers_fst ls2 r1 bl hnd2, renderLayers_fst ls r0 bl hnd]
    exact pureOut_congr (forall2_setImageAt r1 r0 img ls i hpin1) bl
  refine ⟨hout2, ?_⟩
  set r2 := (renderLayers ls2 r1 bl).2 with hr2
  set lid := (d.layers[i]).id with hlid
  have hpin2 : ∀ l ∈ ls2, l.visible = true → l.is_adjustment = false →
      ∀ im, effImageAt r2 l.id im = effImage r1 l := by
    intro l hl hv ha im
    refine effImageAt_of_cache_current r2 l.id (effImage r1 l) ?_ im
    rw [version_versions_eq (renderLayers_versions ls2 r1 bl) l.id]
    exact renderLayers_cache_processed ls2 r1 bl hnd2 l hl hv ha
  show (renderLayers ls2 (r2.invalidate lid) bl).1 =
    (renderLayers ls2 RState.empty bl).1
  rw [renderLayers_fst ls2 (r2.invalidate lid) bl hnd2,
    renderLayers_fst ls2 RState.empty bl hnd2]
  refine pureOut_congr (List.forall₂_same.mpr ?_) bl
  intro x hx
  refine ⟨rfl, rfl, rfl, rfl, rfl, rfl, fun hv ha => ?_⟩
  have hempty : effImage RState.empty x = x.image := rfl
  rw [hempty]
  by_cases hxid : x.id = lid
  · -- the invalidated layer: its cache entry is at the current version, so
    -- the bumped counter makes the renderer fall back to the buffer
    unfold effImage
    rw [hxid]
    refine effImageAt_invalidate_self r2 lid ?_ x.image
    intro s v hsv
    have hentry : dget r2.cache lid = some (effImage r1 x, r2.version lid) := by
      rw [← hxid]
      rw [version_versions_eq (renderLayers_versions ls2 r1 bl) x.id]
      exact renderLayers_cache_processed ls2 r1 bl hnd2 x hx hv ha
    rw [hentry] at hsv
    injection hsv with hsv1
    injection hsv1 with h1 h2
    exact h2.symm
  · -- untouched layers: still pinned to their (faithful) pre-render surface
    unfold effImage
    rw [effImageAt_invalidate_ne r2 lid x.id hxid]
    have hx1 : x ∈ ls := by
      rcases mem_setImageAt img ls i x hx with h | ⟨l0, hl0, hximg⟩
      · exact h
      · exfalso
        apply hxid
        rw [hximg]
        show l0.id = lid
        rw [hlid]
        have : ls[i]? = some (d.layers[i]) := List.getElem?_eq_getElem hi
        rw [hl0] at this
        injection this with hh
        rw [hh]
    rw [hpin2 x hx hv ha x.image]
    unfold effImage
    rw [hpin1 x hx1 hv ha x.image]
    exact hok x hx1

/-- Witness for `cache_staleness_contract` on a one-layer document with a
fresh renderer. -/
theorem cache_staleness_contract_witness :
    (let d : Document := { mkDocument 2 2 with layers := [mkLayer 2 2 0 "a"] }
     let p1 := d.render
     let d2 : Document := { p1.2 with layers := setImageAt p1.2.layers 0 (Image.blank 2 2) }
     let p2 := d2.render
     let d3 := p2.2.invalidate_layer_cache ((d.layers.get ⟨0, by decide⟩).id)
     let p3 := d3.render
     p2.1 = p1.1 ∧
     p3.1 = (renderLayers d3.layers RState.empty (Image.blank d3.width d3.height)).1) :=
  cache_staleness_contract { mkDocument 2 2 with layers := [mkLayer 2 2 0 "a"] } 0
    (Image.blank 2 2) (by decide) (by decide) (fun l _ => rfl)

/-!
## Structural undo / redo round trips (claim C3)
-/

/-- The effect of `execute()` of a primitive command on the layer list
alone (active index, selection, cache and signals stripped). -/
def execLayers (c : PrimCmd) (ls : List Layer) : List Layer :=
  match c with
  | .canvasImg lid _ aft =>
      match aft with
      | some (r, data) =>
          if 0 < r.w ∧ 0 < r.h then
            ls.map fun l =>
              if l.id = lid then { l with image := overwriteRegion l.image r data } else l
          else ls
      | none => ls
  | .canvasMask lid _ aft =>
      match aft with
      | some (r, data) =>
          if 0 < r.w ∧ 0 < r.h then
            ls.map fun l =>
              if l.id = lid then
                match l.mask with
                | some m => { l with mask := some (overwriteRegionA m r data) }
                | none => l
              else l
          else ls
      | none => ls
  | .layerProp lid _ newv _ =>
      ls.map fun l => if l.id = lid then l.setProp newv else l
  | .structAdd layer index => pyInsert index layer ls
  | .structRemove layer index =>
      match ls[index]? with
      | some l0 => if l0.id = layer.id then ls.eraseIdx index else ls
      | none => ls
  | .structMove index previous =>
      match ls[previous]? with
      | some layer => pyInsert index layer (ls.eraseIdx previous)
      | none => ls
  | .docProp _ _ _ => ls
  | .selection _ _ => ls

/-- The effect of `undo()` of a primitive command on the layer list. -/
def undoLayers (c : PrimCmd) (ls : List Layer) : List Layer :=
  match c with
  | .canvasImg lid bef _ =>
      match bef with
      | some (r, data) =>
          if 0 < r.w ∧ 0 < r.h then
            ls.map fun l =>
              if l.id = lid then { l with image := overwriteRegion l.image r data } else l
          else ls
      | none => ls
  | .canvasMask lid bef _ =>
      match bef with
      | some (r, data) =>
          if 0 < r.w ∧ 0 < r.h then
            ls.map fun l =>
              if l.id = lid then
                match l.mask with
                | some m => { l with mask := some (overwriteRegionA m r data) }
                | none => l
              else l
          else ls
      | none => ls
  | .layerProp lid oldv _ _ =>
      ls.map fun l => if l.id = lid then l.setProp oldv else l
  | .structAdd layer index =>
      match ls[index]? with
      | some l0 => if l0.id = layer.id then ls.eraseIdx index else ls
      | none => ls
  | .structRemove layer index => pyInsert index layer ls
  | .structMove index previous =>
      match ls[index]? with
      | some layer => pyInsert previous layer (ls.eraseIdx index)
      | none => ls
  | .docProp _ _ _ => ls
  | .selection _ _ => ls

theorem set_active_layer_layers (d : Document) (i : Int) :
    (d.set_active_layer i).layers = d.layers := by
  unfold Document.set_active_layer
  split <;> rfl

/-- The layer list of a document after `execute()` is the pure
layer-projection of the command. -/
theorem execPrim_layers (c : PrimCmd) (d : Document) :
    (execPrim c d).layers = execLayers c d.layers := by
  cases c with
  | canvasImg lid bef aft =>
      rcases aft with _ | ⟨r, data⟩
      · rfl
      · simp only [execPrim, execLayers]
        split <;> rfl
  | canvasMask lid bef aft =>
      rcases aft with _ | ⟨r, data⟩
      · rfl
      · simp only [execPrim, execLayers]
        split <;> rfl
  | layerProp lid oldv newv notifies =>
      simp only [execPrim, execLayers]
      split <;> rfl
  | structAdd layer index =>
      simp only [execPrim, execLayers]
      rw [set_active_layer_layers]
  | structRemove layer index =>
      simp only [execPrim, execLayers]
      rcases h : d.layers[index]? with _ | l0
      · simp only [h]
      · simp only [h]
        by_cases hid : l0.id = layer.id
        · rw [if_pos hid, if_pos hid]
          split
          · rw [set_active_layer_layers]
          · rfl
        · rw [if_neg hid, if_neg hid]
  | structMove index previous =>
      simp only [execPrim, execLayers]
      rcases h : d.layers[previous]? with _ | layer
      · simp only [h]
      · simp only [h]
        split
        · split
          · rw [set_active_layer_layers]; rfl
          · rfl
        · rfl
  | docProp oldv newv notifies =>
      simp only [execPrim, execLayers]
      split <;> rfl
  | selection oldm newm => rfl

/-- The layer list of a document after `undo()` is the pure
layer-projection of the command. -/
theorem undoPrim_layers (c : PrimCmd) (d : Document) :
    (undoPrim c d).layers = undoLayers c d.layers := by
  cases c with
  | canvasImg lid bef aft =>
      rcases bef with _ | ⟨r, data⟩
      · rfl
      · simp only [undoPrim, undoLayers]
        split <;> rfl
  | canvasMask lid bef aft =>
      rcases bef with _ | ⟨r, data⟩
      · rfl
      · simp only [undoPrim, undoLayers]
        split <;> rfl
  | layerProp lid oldv newv notifies =>
      simp only [undoPrim, undoLayers]
      split <;> rfl
  | structAdd layer index =>
      simp only [undoPrim, undoLayers]
      rcases h : d.layers[index]? with _ | l0
      · simp only [h]
      · simp only [h]
        by_cases hid : l0.id = layer.id
        · rw [if_pos hid, if_pos hid, set_active_layer_layers]
        · rw [if_neg hid, if_neg hid]
  | structRemove layer index =>
      simp only [undoPrim, undoLayers]
      rw [set_active_layer_layers]
  | structMove index previous =>
      simp only [undoPrim, undoLayers]
      rcases h : d.layers[index]? with _ | layer
      · simp only [h]
      · simp only [h]
        split
        · split
          · rw [set_active_layer_layers]; rfl
          · rfl
        · rfl
  | docProp oldv newv notifies =>
      simp only [undoPrim, undoLayers]
      split <;> rfl
  | selection oldm newm => rfl

/-- The layer-list effect of `Command.execute`. -/
def cmdExecLayers (c : Cmd) (ls : List Layer) : List Layer :=
  match c with
  | .prim p => execLayers p ls
  | .macroCommand cs => cs.foldl (fun ls p => execLayers p ls) ls

/-- The layer-list effect of `Command.undo`. -/
def cmdUndoLayers (c : Cmd) (ls : List Layer) : List Layer :=
  match c with
  | .prim p => undoLayers p ls
  | .macroCommand cs => cs.reverse.foldl (fun ls p => undoLayers p ls) ls

theorem foldl_execPrim_layers (cs : List PrimCmd) :
    ∀ (d : Document),
      (cs.foldl (fun d p => execPrim p d) d).layers =
        cs.foldl (fun ls p => execLayers p ls) d.layers := by
  induction cs with
  | nil => intro d; rfl
  | cons c rest ih =>
      intro d
      rw [List.foldl_cons, List.foldl_cons, ih, execPrim_layers]

theorem foldl_undoPrim_layers (cs : List PrimCmd) :
    ∀ (d : Document),
      (cs.foldl (fun d p => undoPrim p d) d).layers =
        cs.foldl (fun ls p => undoLayers p ls) d.layers := by
  induction cs with
  | nil => intro d; rfl
  | cons c rest ih =>
      intro d
      rw [List.foldl_cons, List.foldl_cons, ih, undoPrim_layers]

theorem execC_layers (c : Cmd) (d : Document) :
    (Cmd.execC c d).layers = cmdExecLayers c d.layers := by
  cases c with
  | prim p => exact execPrim_layers p d
  | macroCommand cs => exact foldl_execPrim_layers cs d

theorem undoC_layers (c : Cmd) (d : Document) :
    (Cmd.undoC c d).layers = cmdUndoLayers c d.layers := by
  cases c with
  | prim p => exact undoPrim_layers p d
  | macroCommand cs => exact foldl_undoPrim_layers cs.reverse d

theorem pyInsert_of_le (i : Nat) (a : α) (l : List α) (h : i ≤ l.length) :
    pyInsert i a l = l.insertIdx i a := by
  unfold pyInsert
  rw [Nat.min_eq_left h]

/-- Re-inserting the erased element at its old position restores the
list. -/
theorem insertIdx_getElem_eraseIdx :
    ∀ (l : List α) (i : Nat) (h : i < l.length),
      (l.eraseIdx i).insertIdx i (l.get ⟨i, h⟩) = l
  | _ :: _, 0, _ => rfl
  | a :: l, n + 1, h => by
      show a :: (l.eraseIdx n).insertIdx n (l.get ⟨n, _⟩) = a :: l
      rw [insertIdx_getElem_eraseIdx l n (by simpa using h)]

theorem getElemQ_insertIdx_self (l : List α) (x : α) (n : Nat) (hn : n ≤ l.length) :
    (l.insertIdx n x)[n]? = some x := by
  have hlen : n < (l.insertIdx n x).length := by
    rw [List.length_insertIdx n l hn]
    omega
  rw [List.getElem?_eq_getElem hlen, List.getElem_insertIdx_self l x n hn]

/-- A push that triggers no eviction: the command is appended and its bytes
added, nothing else changes. -/
theorem push_no_evict (hm : HistoryManager) (c : Cmd)
    (hredo : hm.redo_stack = [])
    (hcons : hm.cached_memory = (stackBytes hm.undo_stack : Int))
    (hcount : hm.undo_stack.length + 1 ≤ hm.limit)
    (hbytes : (stackBytes hm.undo_stack : Int) + (c.bytes : Int) ≤ (hm.memory_limit : Int)) :
    hm.push c = { hm with
                  undo_stack := hm.undo_stack ++ [c],
                  redo_stack := [],
                  cached_memory := hm.cached_memory + (c.bytes : Int) } := by
  unfold HistoryManager.push
  rw [hredo]
  dsimp only
  rw [show (stackBytes ([] : List Cmd) : Int) = 0 from rfl, sub_zero]
  rw [evictLoop_of_le _ _ _ (by rw [hcons]; exact hbytes)]
  rw [countTrim_of_le _ _ _ (by rw [List.length_append]; simpa using hcount)]

/-- A chain of commands linking two layer lists: executing them forward
walks from `ls` to `ls'`, and each one's `undo` inverts its `execute` at
the state where it applies. -/
inductive LChain : List Layer → List Cmd → List Layer → Prop where
  | nil (ls : List Layer) : LChain ls [] ls
  | cons {ls ls1 ls2 : List Layer} {c : Cmd} {cs : List Cmd}
      (hexec : cmdExecLayers c ls = ls1) (hundo : cmdUndoLayers c ls1 = ls)
      (hrest : LChain ls1 cs ls2) : LChain ls (c :: cs) ls2

theorem undoTimes_succ (n : Nat) :
    ∀ (d : Document), undoTimes (n + 1) d = docUndo (undoTimes n d) := by
  induction n with
  | zero => intro d; rfl
  | succ k ih =>
      intro d
      show undoTimes (k + 1) (docUndo d) = _
      rw [ih (docUndo d)]
      rfl

/-- Popping one command off the undo stack: the command's `undo` runs
against the document and the command moves to the redo stack. -/
theorem docUndo_concat (d : Document) (pre : List Cmd) (c : Cmd)
    (h : d.history.undo_stack = pre ++ [c]) :
    (docUndo d).layers = cmdUndoLayers c d.layers ∧
    (docUndo d).history.undo_stack = pre ∧
    (docUndo d).history.redo_stack = d.history.redo_stack ++ [c] := by
  unfold docUndo
  rw [h, List.getLast?_concat]
  dsimp only
  refine ⟨?_, ?_, ?_⟩
  · show (Cmd.undoC c _).layers = _
    rw [undoC_layers]
  · show (Cmd.undoC c _).history.undo_stack = pre
    rw [undoC_history]
    show (pre ++ [c]).dropLast = pre
    exact List.dropLast_concat
  · show (Cmd.undoC c _).history.redo_stack ++ [c] = _
    rw [undoC_history]

/-- Pushing one command back from the redo stack: the command's `execute`
runs against the document and the command moves to the undo stack. -/
theorem docRedo_concat (d : Document) (rds : List Cmd) (c : Cmd)
    (h : d.history.redo_stack = rds ++ [c]) :
    (docRedo d).layers = cmdExecLayers c d.layers ∧
    (docRedo d).history.redo_stack = rds ∧
    (docRedo d).history.undo_stack = d.history.undo_stack ++ [c] := by
  unfold docRedo
  rw [h, List.getLast?_concat]
  dsimp only
  refine ⟨?_, ?_, ?_⟩
  · show (Cmd.execC c _).layers = _
    rw [execC_layers]
  · show (Cmd.execC c _).history.redo_stack = rds
    rw [execC_history]
    show (rds ++ [c]).dropLast = rds
    exact List.dropLast_concat
  · show (Cmd.execC c _).history.undo_stack ++ [c] = _
    rw [execC_history]

/-- Undoing a chain of `n` commands sitting on top of the undo stack walks
the layer list back along the chain and moves the commands, newest first,
onto the redo stack. -/
theorem undoTimes_chain {ls : List Layer} {cs : List Cmd} {ls' : List Layer}
    (hch : LChain ls cs ls') :
    ∀ (d : Document) (pre : List Cmd), d.layers = ls' →
      d.history.undo_stack = pre ++ cs →
      (undoTimes cs.length d).layers = ls ∧
      (undoTimes cs.length d).history.undo_stack = pre ∧
      (undoTimes cs.length d).history.redo_stack =
        d.history.redo_stack ++ cs.reverse := by
  induction hch with
  | nil =>
      intro d pre h1 h2
      refine ⟨h1, by simpa using h2, by simp [undoTimes]⟩
  | cons hexec hundo hrest ih =>
      intro d pre h1 h2
      rename_i ls ls1 ls2 c cs
      show (undoTimes (cs.length + 1) d).layers = ls ∧
        (undoTimes (cs.length + 1) d).history.undo_stack = pre ∧
        (undoTimes (cs.length + 1) d).history.redo_stack =
          d.history.redo_stack ++ (c :: cs).reverse
      rw [undoTimes_succ]
      obtain ⟨hl, hu, hr⟩ := ih d (pre ++ [c]) h1
        (by rw [h2, List.append_assoc]; rfl)
      obtain ⟨p1, p2, p3⟩ := docUndo_concat (undoTimes cs.length d) pre c hu
      refine ⟨?_, p2, ?_⟩
      · rw [p1, hl, hundo]
      · rw [p3, hr, List.append_assoc, List.reverse_cons]

/-- Redoing a chain of `n` commands sitting (reversed) on top of the redo
stack walks the layer list forward along the chain and moves the commands
back onto the undo stack. -/
theorem redoTimes_chain {ls : List Layer} {cs : List Cmd} {ls' : List Layer}
    (hch : LChain ls cs ls') :
    ∀ (d : Document) (rds : List Cmd), d.layers = ls →
      d.history.redo_stack = rds ++ cs.reverse →
      (redoTimes cs.length d).layers = ls' ∧
      (redoTimes cs.length d).history.redo_stack = rds ∧
      (redoTimes cs.length d).history.undo_stack =
        d.history.undo_stack ++ cs := by
  induction hch with
  | nil =>
      intro d rds h1 h2
      refine ⟨h1, by simpa using h2, by simp [redoTimes]⟩
  | cons hexec hundo hrest ih =>
      intro d rds h1 h2
      rename_i ls ls1 ls2 c cs
      show (redoTimes cs.length (docRedo d)).layers = ls2 ∧
        (redoTimes cs.length (docRedo d)).history.redo_stack = rds ∧
        (redoTimes cs.length (docRedo d)).history.undo_stack =
          d.history.undo_stack ++ (c :: cs)
      obtain ⟨p1, p2, p3⟩ := docRedo_concat d (rds ++ cs.reverse) c
        (by rw [h2, List.reverse_cons, List.append_assoc])
      obtain ⟨hl, hu, hr⟩ := ih (docRedo d) rds (by rw [p1, h1, hexec]) p2
      refine ⟨hl, hu, ?_⟩
      rw [hr, p3, List.append_assoc]
      rfl

/-- The layer-structure operations of claim C3 (each executes and pushes
one `LayerStructureCommand`); `id` models the fresh `uuid4` of a created
layer. -/
inductive SOp where
  | addL (id : Nat) (nm : String)
  | dupL (i : Int) (id : Nat)
  | delL (i : Int)
  | movL (i j : Int)

/-- Run one structural operation. -/
def applySOp (d : Document) : SOp → Document
  | .addL id nm => d.add_layer id nm
  | .dupL i id => d.duplicate_layer i id
  | .delL i => d.delete_layer i
  | .movL i j => d.move_layer i j

/-- Run a sequence of structural operations. -/
def runS (d : Document) (ops : List SOp) : Document := ops.foldl applySOp d

/-- The precondition under which a structural operation actually pushes
and executes a command (mirrors the source's guards). -/
def validSOpB (d : Document) : SOp → Bool
  | .addL _ _ => true
  | .dupL i _ => decide (0 ≤ i) && decide (i < (d.layers.length : Int))
  | .delL i => decide (0 ≤ i) && decide (i < (d.layers.length : Int)) &&
      decide (1 < d.layers.length)
  | .movL i j => decide (i ≠ j) && decide (0 ≤ i) &&
      decide (i < (d.layers.length : Int)) && decide (0 ≤ j) &&
      decide (j < (d.layers.length : Int))

/-- Validity of a whole operation sequence, checked state by state. -/
def validSeqB (d : Document) : List SOp → Bool
  | [] => true
  | op :: rest => validSOpB d op && validSeqB (applySOp d op) rest

theorem addCmd_inverse (ls : List Layer) (layer : Layer) (i : Nat)
    (h : i ≤ ls.length) :
    execLayers (.structAdd layer i) ls = ls.insertIdx i layer ∧
    undoLayers (.structAdd layer i) (ls.insertIdx i layer) = ls := by
  constructor
  · exact pyInsert_of_le i layer ls h
  · simp only [undoLayers]
    rw [getElemQ_insertIdx_self ls layer i h]
    simp [List.eraseIdx_insertIdx]

theorem removeCmd_inverse (ls : List Layer) (i : Nat) (h : i < ls.length) :
    execLayers (.structRemove (ls.get ⟨i, h⟩) i) ls = ls.eraseIdx i ∧
    undoLayers (.structRemove (ls.get ⟨i, h⟩) i) (ls.eraseIdx i) = ls := by
  constructor
  · simp only [execLayers]
    rw [List.getElem?_eq_getElem h]
    simp [List.get_eq_getElem]
  · simp only [undoLayers]
    rw [pyInsert_of_le _ _ _ (by rw [List.length_eraseIdx_of_lt h]; omega)]
    exact insertIdx_getElem_eraseIdx ls i h

theorem moveCmd_inverse (ls : List Layer) (i j : Nat) (hi : i < ls.length)
    (hj : j < ls.length) :
    execLayers (.structMove j i) ls = (ls.eraseIdx i).insertIdx j (ls.get ⟨i, hi⟩) ∧
    undoLayers (.structMove j i)
      ((ls.eraseIdx i).insertIdx j (ls.get ⟨i, hi⟩)) = ls := by
  have hlen : (ls.eraseIdx i).length = ls.length - 1 := List.length_eraseIdx_of_lt hi
  have hj' : j ≤ (ls.eraseIdx i).length := by omega
  constructor
  · simp only [execLayers]
    rw [List.getElem?_eq_getElem hi]
    dsimp only
    rw [pyInsert_of_le _ _ _ hj']
    rfl
  · simp only [undoLayers]
    rw [getElemQ_insertIdx_self _ _ _ hj']
    dsimp only
    rw [List.eraseIdx_insertIdx]
    rw [pyInsert_of_le _ _ _ (by omega : i ≤ (ls.eraseIdx i).length)]
    exact insertIdx_getElem_eraseIdx ls i hi

/-- Behaviour of "push one 128-byte structure command, then execute it"
when the history has a clear redo stack and room for the command. -/
theorem pushExec_spec (d : Document) (p : PrimCmd)
    (hb : PrimCmd.bytes p = 128)
    (hredo : d.history.redo_stack = [])
    (hcons : d.history.cached_memory = (stackBytes d.history.undo_stack : Int))
    (hcount : d.history.undo_stack.length + 1 ≤ d.history.limit)
    (hbytes : (stackBytes d.history.undo_stack : Int) + 128 ≤ (d.history.memory_limit : Int)) :
    (Cmd.execC (.prim p) (docPush (.prim p) d)).history.undo_stack =
        d.history.undo_stack ++ [Cmd.prim p] ∧
    (Cmd.execC (.prim p) (docPush (.prim p) d)).history.redo_stack = [] ∧
    (Cmd.execC (.prim p) (docPush (.prim p) d)).history.cached_memory =
      (stackBytes (d.history.undo_stack ++ [Cmd.prim p]) : Int) ∧
    (Cmd.execC (.prim p) (docPush (.prim p) d)).history.limit = d.history.limit ∧
    (Cmd.execC (.prim p) (docPush (.prim p) d)).history.memory_limit =
      d.history.memory_limit ∧
    (Cmd.execC (.prim p) (docPush (.prim p) d)).layers = execLayers p d.layers := by
  have hb' : (Cmd.bytes (.prim p) : Int) = 128 := by
    show ((PrimCmd.bytes p : Nat) : Int) = 128
    rw [hb]
    rfl
  have hpush := push_no_evict d.history (.prim p) hredo hcons hcount
    (by rw [hb']; exact hbytes)
  have hh : (Cmd.execC (.prim p) (docPush (.prim p) d)).history =
      d.history.push (.prim p) := execC_history _ _
  refine ⟨?_, ?_, ?_, ?_, ?_, ?_⟩
  · rw [hh, hpush]
  · rw [hh, hpush]
  · rw [hh, hpush]
    show d.history.cached_memory + (Cmd.bytes (.prim p) : Int) = _
    rw [hcons, hb', stackBytes_append, stackBytes_cons, stackBytes_nil]
    have hbn : (Cmd.prim p).bytes = 128 := hb
    omega
  · rw [hh, hpush]
  · rw [hh, hpush]
  · rw [execC_layers]
    rfl

/-- Behaviour of one valid structural operation: it pushes exactly one
128-byte structure command (no eviction given room), executes it, and the
command's `undo` inverts its layer-list effect. -/
theorem applySOp_valid_spec (d : Document) (op : SOp)
    (hv : validSOpB d op = true)
    (hredo : d.history.redo_stack = [])
    (hcons : d.history.cached_memory = (stackBytes d.history.undo_stack : Int))
    (hcount : d.history.undo_stack.length + 1 ≤ d.history.limit)
    (hbytes : (stackBytes d.history.undo_stack : Int) + 128 ≤ (d.history.memory_limit : Int)) :
    ∃ c : Cmd,
      c.bytes = 128 ∧
      (applySOp d op).history.undo_stack = d.history.undo_stack ++ [c] ∧
      (applySOp d op).history.redo_stack = [] ∧
      (applySOp d op).history.cached_memory =
        (stackBytes (applySOp d op).history.undo_stack : Int) ∧
      (applySOp d op).history.limit = d.history.limit ∧
      (applySOp d op).history.memory_limit = d.history.memory_limit ∧
      cmdExecLayers c d.layers = (applySOp d op).layers ∧
      cmdUndoLayers c ((applySOp d op).layers) = d.layers := by
  cases op with
  | addL id nm =>
      set p : PrimCmd := .structAdd (mkLayer d.width d.height id nm) d.layers.length
        with hp
      have happ : applySOp d (.addL id nm) =
          Cmd.execC (.prim p) (docPush (.prim p) d) := rfl
      obtain ⟨s1, s2, s3, s4, s5, s6⟩ := pushExec_spec d p rfl hredo hcons hcount hbytes
      obtain ⟨e1, e2⟩ := addCmd_inverse d.layers (mkLayer d.width d.height id nm)
        d.layers.length (le_refl _)
      refine ⟨.prim p, rfl, ?_, ?_, ?_, ?_, ?_, ?_, ?_⟩ <;> rw [happ]
      · exact s1
      · exact s2
      · rw [s3, s1]
      · exact s4
      · exact s5
      · rw [s6]; rfl
      · rw [s6]
        show undoLayers p _ = _
        rw [hp, e1, e2]
  | dupL i id =>
      simp only [validSOpB, Bool.and_eq_true, decide_eq_true_iff] at hv
      obtain ⟨h0, h1⟩ := hv
      have hlt : i.toNat < d.layers.length := by omega
      have hget : d.layers[i.toNat]? = some (d.layers.get ⟨i.toNat, hlt⟩) := by
        rw [List.getElem?_eq_getElem hlt]
        rfl
      set orig := d.layers.get ⟨i.toNat, hlt⟩ with horig
      set nl : Layer := { mkLayer orig.image.w orig.image.h id (orig.name ++ " Copy") with
        image := orig.image, opacity := orig.opacity, visible := orig.visible,
        blend_mode := orig.blend_mode } with hnl
      set p : PrimCmd := .structAdd nl (i.toNat + 1) with hp
      have happ : applySOp d (.dupL i id) =
          Cmd.execC (.prim p) (docPush (.prim p) d) := by
        show Document.duplicate_layer d i id = _
        unfold Document.duplicate_layer
        rw [if_neg (by omega), hget]
      obtain ⟨s1, s2, s3, s4, s5, s6⟩ := pushExec_spec d p rfl hredo hcons hcount hbytes
      obtain ⟨e1, e2⟩ := addCmd_inverse d.layers nl (i.toNat + 1) (by omega)
      refine ⟨.prim p, rfl, ?_, ?_, ?_, ?_, ?_, ?_, ?_⟩ <;> rw [happ]
      · exact s1
      · exact s2
      · rw [s3, s1]
      · exact s4
      · exact s5
      · rw [s6]; rfl
      · rw [s6]
        show undoLayers p _ = _
        rw [hp, e1, e2]
  | delL i =>
      simp only [validSOpB, Bool.and_eq_true, decide_eq_true_iff] at hv
      obtain ⟨⟨h0, h1⟩, h2⟩ := hv
      have hlt : i.toNat < d.layers.length := by omega
      have hget : d.layers[i.toNat]? = some (d.layers.get ⟨i.toNat, hlt⟩) := by
        rw [List.getElem?_eq_getElem hlt]
        rfl
      set p : PrimCmd := .structRemove (d.layers.get ⟨i.toNat, hlt⟩) i.toNat with hp
      have happ : applySOp d (.delL i) =
          Cmd.execC (.prim p) (docPush (.prim p) d) := by
        show Document.delete_layer d i = _
        unfold Document.delete_layer
        rw [if_pos ⟨h0, h1, h2⟩, hget]
      obtain ⟨s1, s2, s3, s4, s5, s6⟩ := pushExec_spec d p rfl hredo hcons hcount hbytes
      obtain ⟨e1, e2⟩ := removeCmd_inverse d.layers i.toNat hlt
      refine ⟨.prim p, rfl, ?_, ?_, ?_, ?_, ?_, ?_, ?_⟩ <;> rw [happ]
      · exact s1
      · exact s2
      · rw [s3, s1]
      · exact s4
      · exact s5
      · rw [s6]; rfl
      · rw [s6]
        show undoLayers p _ = _
        rw [hp, e1, e2]
  | movL i j =>
      simp only [validSOpB, Bool.and_eq_true, decide_eq_true_iff] at hv
      obtain ⟨⟨⟨⟨hne, hi0⟩, hi1⟩, hj0⟩, hj1⟩ := hv
      have hilt : i.toNat < d.layers.length := by omega
      have hjlt : j.toNat < d.layers.length := by omega
      set p : PrimCmd := .structMove j.toNat i.toNat with hp
      have happ : applySOp d (.movL i j) =
          Cmd.execC (.prim p) (docPush (.prim p) d) := by
        show Document.move_layer d i j = _
        unfold Document.move_layer
        rw [if_neg hne, if_pos ⟨hi0, hi1, hj0, hj1⟩]
      obtain ⟨s1, s2, s3, s4, s5, s6⟩ := pushExec_spec d p rfl hredo hcons hcount hbytes
      obtain ⟨e1, e2⟩ := moveCmd_inverse d.layers i.toNat j.toNat hilt hjlt
      refine ⟨.prim p, rfl, ?_, ?_, ?_, ?_, ?_, ?_, ?_⟩ <;> rw [happ]
      · exact s1
      · exact s2
      · rw [s3, s1]
      · exact s4
      · exact s5
      · rw [s6]; rfl
      · rw [s6]
        show undoLayers p _ = _
        rw [hp, e1, e2]

/-- Running a valid operation sequence from a history state with room for
all its commands produces exactly one pushed command per operation, an
empty redo stack, and an invertible chain over the layer lists. -/
theorem runS_spec (ops : List SOp) :
    ∀ (d : Document),
      validSeqB d ops = true →
      d.history.redo_stack = [] →
      d.history.cached_memory = (stackBytes d.history.undo_stack : Int) →
      d.history.undo_stack.length + ops.length ≤ d.history.limit →
      (stackBytes d.history.undo_stack : Int) + 128 * ops.length ≤
        (d.history.memory_limit : Int) →
      ∃ cs : List Cmd,
        cs.length = ops.length ∧
        (runS d ops).history.undo_stack = d.history.undo_stack ++ cs ∧
        (runS d ops).history.redo_stack = [] ∧
        LChain d.layers cs (runS d ops).layers := by
  induction ops with
  | nil =>
      intro d _ h2 _ _ _
      exact ⟨[], rfl, by simp [runS], h2, LChain.nil _⟩
  | cons op rest ih =>
      intro d hv h2 h3 h4 h5
      simp only [validSeqB, Bool.and_eq_true] at hv
      obtain ⟨hv1, hv2⟩ := hv
      obtain ⟨c, c0, c1, c2, c3, c4, c5, c6, c7⟩ := applySOp_valid_spec d op hv1 h2 h3
        (by simp only [List.length_cons] at h4; omega)
        (by simp only [List.length_cons] at h5; push_cast at h5 ⊢; omega)
      obtain ⟨cs, r1, r2, r3, r4⟩ := ih (applySOp d op) hv2 c2
        (by rw [c3])
        (by rw [c1, c4, List.length_append]
            simp only [List.length_cons] at h4
            simp only [List.length_singleton]
            omega)
        (by rw [c1, c5, stackBytes_append, stackBytes_cons, stackBytes_nil, c0]
            simp only [List.length_cons] at h5
            push_cast at h5 ⊢
            omega)
      refine ⟨c :: cs, ?_, ?_, r3, ?_⟩
      · simp [r1]
      · show (runS (applySOp d op) rest).history.undo_stack = _
        rw [r2, c1, List.append_assoc]
        rfl
      · exact LChain.cons c6 c7 r4

/-- Claim C3, amended: for a sequence of N valid layer-structure operations
run from a state whose history has room for them (no command of the
sequence is evicted: the redo stack starts empty, the byte counter is
consistent, and both the count limit and the byte budget accommodate the N
128-byte structure commands), undoing N times restores the document's layer
list — the same layer ids in the same order — and redoing N times restores
the post-sequence layer list.  (As stated, without the no-eviction
proviso, the claim is false: see `structure_roundtrip_counterexample`.) -/
theorem structure_undo_redo_roundtrip (d : Document) (ops : List SOp)
    (hvalid : validSeqB d ops = true)
    (hredo : d.history.redo_stack = [])
    (hcons : d.history.cached_memory = (stackBytes d.history.undo_stack : Int))
    (hcount : d.history.undo_stack.length + ops.length ≤ d.history.limit)
    (hbytes : (stackBytes d.history.undo_stack : Int) + 128 * ops.length ≤
      (d.history.memory_limit : Int)) :
    (undoTimes ops.length (runS d ops)).layers.map Layer.id =
      d.layers.map Layer.id ∧
    (redoTimes ops.length (undoTimes ops.length (runS d ops))).layers.map Layer.id =
      (runS d ops).layers.map Layer.id := by
  obtain ⟨cs, hlen, hstk, hrd, hch⟩ := runS_spec ops d hvalid hredo hcons hcount hbytes
  rw [← hlen]
  obtain ⟨u1, u2, u3⟩ := undoTimes_chain hch (runS d ops) d.history.undo_stack rfl hstk
  obtain ⟨rr1, rr2, rr3⟩ := redoTimes_chain hch (undoTimes cs.length (runS d ops)) [] u1
    (by rw [u3, hrd])
  exact ⟨by rw [u1], by rw [rr1]⟩

/-- Witness for `structure_undo_redo_roundtrip`: add two layers, move one,
delete one, on a fresh document. -/
theorem structure_undo_redo_roundtrip_witness :
    (undoTimes 4 (runS (mkDocument 4 4)
        [.addL 0 "a", .addL 1 "b", .movL 0 1, .delL 0])).layers.map Layer.id =
      (mkDocument 4 4).layers.map Layer.id ∧
    (redoTimes 4 (undoTimes 4 (runS (mkDocument 4 4)
        [.addL 0 "a", .addL 1 "b", .movL 0 1, .delL 0]))).layers.map Layer.id =
      (runS (mkDocument 4 4)
        [.addL 0 "a", .addL 1 "b", .movL 0 1, .delL 0]).layers.map Layer.id :=
  structure_undo_redo_roundtrip (mkDocument 4 4)
    [.addL 0 "a", .addL 1 "b", .movL 0 1, .delL 0]
    (by decide) rfl rfl (by decide) (by decide)

set_option maxRecDepth 400000 in
/-- Counterexample to claim C3 as stated: on a fresh document (count limit
100), executing and pushing 101 add-layer commands evicts the first one, so
101 undos do not restore the pre-sequence (empty) layer list. -/
theorem structure_roundtrip_counterexample :
    (undoTimes 101 (runS (mkDocument 8 8)
        ((List.range 101).map fun i => SOp.addL i "L"))).layers.map Layer.id ≠
      (mkDocument 8 8).layers.map Layer.id := by
  decide

/-!
## The active-layer-index invariant (claim C5)
-/

/-- Commands that are not `LayerStructureCommand`s. -/
def noStructP : PrimCmd → Prop
  | .structAdd _ _ => False
  | .structRemove _ _ => False
  | .structMove _ _ => False
  | _ => True

/-- A command (macros included) containing no structure command. -/
def noStructCmd : Cmd → Prop
  | .prim p => noStructP p
  | .macroCommand cs => ∀ p ∈ cs, noStructP p

/-- A history stack containing no structure command. -/
def noStructStack (cs : List Cmd) : Prop := ∀ c ∈ cs, noStructCmd c

/-- The per-state part of claim C5 as it actually holds: the active index
is a valid index whenever layers exist; on an empty layer list it is -1
(the initial state) or a stale 0 (left behind by the undo of the only
add). -/
def activeOK (d : Document) : Prop :=
  (d.layers ≠ [] →
    0 ≤ d.active_layer_index ∧ d.active_layer_index < (d.layers.length : Int)) ∧
  (d.layers = [] → d.active_layer_index = -1 ∨ d.active_layer_index = 0)

/-- `activeOK` phrased on the layer count (the form the proofs use). -/
def activeOKL (d : Document) : Prop :=
  (0 < d.layers.length →
    0 ≤ d.active_layer_index ∧ d.active_layer_index < (d.layers.length : Int)) ∧
  (d.layers.length = 0 → d.active_layer_index = -1 ∨ d.active_layer_index = 0)

theorem activeOK_iff (d : Document) : activeOK d ↔ activeOKL d := by
  unfold activeOK activeOKL
  constructor
  · rintro ⟨h1, h2⟩
    exact ⟨fun h => h1 (List.length_pos.mp h), fun h => h2 (List.length_eq_zero.mp h)⟩
  · rintro ⟨h1, h2⟩
    exact ⟨fun h => h1 (List.length_pos.mpr h), fun h => h2 (List.length_eq_zero.mpr h)⟩

/-- The inductive invariant for claim C5: `activeOK`, plus the fact that a
-1 index only coexists with an empty document whose history holds no
structure command (so no undo/redo can ever insert a layer under it). -/
def C5Inv (d : Document) : Prop :=
  activeOKL d ∧
  (d.active_layer_index = -1 →
    d.layers = [] ∧ noStructStack d.history.undo_stack ∧
      noStructStack d.history.redo_stack)

/-- The public operations of the claim-C5 reachability relation. -/
inductive ReachOp where
  | addLayer (id : Nat) (nm : String)
  | deleteLayer (i : Int)
  | duplicateLayer (i : Int) (id : Nat)
  | moveLayer (i j : Int)
  | moveLayerUp
  | moveLayerDown
  | flatten (id : Nat)
  | mergeDown (i : Int)
  | combineSel (m : AMask) (op : SelOp)
  | setSel (r : Rect) (op : SelOp)
  | clearSel
  | selectAllOp
  | invertSel
  | featherSel (r : Int)
  | expandSel (n : Int)
  | contractSel (n : Int)
  | undoOp
  | redoOp
  | gotoIdx (i : Int)
  | clearHist
  | renderOp

/-- Run one public operation. -/
def applyReachOp (ks : SelKernels) (d : Document) : ReachOp → Document
  | .addLayer id nm => d.add_layer id nm
  | .deleteLayer i => d.delete_layer i
  | .duplicateLayer i id => d.duplicate_layer i id
  | .moveLayer i j => d.move_layer i j
  | .moveLayerUp => d.move_layer_up
  | .moveLayerDown => d.move_layer_down
  | .flatten id => d.flatten_image id
  | .mergeDown i => d.merge_layer_down i
  | .combineSel m op => d.combine_selection m op
  | .setSel r op => d.set_selection r op
  | .clearSel => d.clear_selection
  | .selectAllOp => d.select_all
  | .invertSel => d.invert_selection
  | .featherSel r => Document.feather_selection ks d r
  | .expandSel n => Document.expand_selection ks d n
  | .contractSel n => Document.contract_selection ks d n
  | .undoOp => docUndo d
  | .redoOp => docRedo d
  | .gotoIdx i => docGoto d i
  | .clearHist => docClearHistory d
  | .renderOp => (d.render).2

/-- Run a sequence of public operations. -/
def applyReachOps (ks : SelKernels) (d : Document) (ops : List ReachOp) : Document :=
  ops.foldl (applyReachOp ks) d

theorem pyInsert_length (i : Nat) (a : α) (l : List α) :
    (pyInsert i a l).length = l.length + 1 := by
  unfold pyInsert
  exact List.length_insertIdx _ _ (Nat.min_le_right i l.length)

/-- Plain facts about `set_active_layer`. -/
theorem set_active_post (d : Document) (i : Int) :
    (d.set_active_layer i).layers = d.layers ∧
    ((0 ≤ i ∧ i < (d.layers.length : Int)) →
      (d.set_active_layer i).active_layer_index = i) ∧
    (¬ (0 ≤ i ∧ i < (d.layers.length : Int)) →
      (d.set_active_layer i).active_layer_index = d.active_layer_index) := by
  unfold Document.set_active_layer
  refine ⟨by split <;> rfl, fun h => by rw [if_pos h], fun h => by rw [if_neg h]⟩

/-- `activeOK` only looks at the layer count and the index. -/
theorem activeOK_of_same (d d' : Document)
    (hl : d'.layers.length = d.layers.length)
    (hA : d'.active_layer_index = d.active_layer_index)
    (hok : activeOK d) : activeOK d' := by
  constructor
  · intro h
    have hne : d.layers ≠ [] := by
      intro hh
      rw [← List.length_pos] at h
      rw [hh, List.length_nil] at hl
      omega
    obtain ⟨h1, h2⟩ := hok.1 hne
    rw [hA, hl]
    exact ⟨h1, h2⟩
  · intro h
    have : d.layers = [] := by
      rw [← List.length_eq_zero]
      rw [h] at hl
      simpa using hl.symm
    rw [hA]
    exact hok.2 this

theorem evictLoop_mem (b : Int) :
    ∀ (s : List Cmd) (m : Int) (c : Cmd), c ∈ (evictLoop b m s).2 → c ∈ s := by
  intro s
  induction s with
  | nil => intro m c h; simp [evictLoop] at h
  | cons x rest ih =>
      intro m c h
      rw [evictLoop] at h
      split at h
      · exact List.mem_cons_of_mem _ (ih _ c h)
      · exact h

theorem countTrim_mem (L : Nat) :
    ∀ (s : List Cmd) (m : Int) (c : Cmd), c ∈ (countTrim L m s).2 → c ∈ s := by
  intro s
  induction s with
  | nil => intro m c h; simp [countTrim] at h
  | cons x rest ih =>
      intro m c h
      rw [countTrim] at h
      split at h
      · exact List.mem_cons_of_mem _ (ih _ c h)
      · exact h

/-- Pushing a non-structure command keeps both stacks structure-free. -/
theorem push_noStructStack (hm : HistoryManager) (c : Cmd)
    (h1 : noStructStack hm.undo_stack) (hc : noStructCmd c) :
    noStructStack (hm.push c).undo_stack ∧ noStructStack (hm.push c).redo_stack := by
  constructor
  · intro x hx
    have hx2 := countTrim_mem hm.limit _ _ x hx
    have hx3 := evictLoop_mem (hm.memory_limit : Int) _ _ x hx2
    rcases List.mem_append.mp hx3 with h | h
    · exact h1 x h
    · rw [List.mem_singleton.mp h]
      exact hc
  · intro x hx
    exact absurd hx (List.not_mem_nil x)

/-- Establish `activeOKL` from a computed layer count and active index. -/
theorem okL_criterion (R : Document) (n : Nat) (a : Int)
    (hLen : R.layers.length = n) (hAct : R.active_layer_index = a)
    (h1 : 0 < n → 0 ≤ a ∧ a < (n : Int))
    (h2 : n = 0 → a = -1 ∨ a = 0) : activeOKL R := by
  constructor
  · intro h
    rw [hAct, hLen]
    exact h1 (by rw [hLen] at h; exact h)
  · intro h
    rw [hAct]
    exact h2 (by rw [hLen] at h; exact h)

/-- `set_active_layer` as an exhaustive case split. -/
theorem set_active_cases (d : Document) (j : Int) :
    (d.set_active_layer j).layers = d.layers ∧
    (((d.set_active_layer j).active_layer_index = j ∧
        0 ≤ j ∧ j < (d.layers.length : Int)) ∨
      ((d.set_active_layer j).active_layer_index = d.active_layer_index ∧
        ¬ (0 ≤ j ∧ j < (d.layers.length : Int)))) := by
  obtain ⟨h1, h2, h3⟩ := set_active_post d j
  by_cases hg : 0 ≤ j ∧ j < (d.layers.length : Int)
  · exact ⟨h1, Or.inl ⟨h2 hg, hg⟩⟩
  · exact ⟨h1, Or.inr ⟨h3 hg, hg⟩⟩

/-- `execute()` of any primitive command preserves `activeOKL`, and from a
non-negative active index it never produces a negative one. -/
theorem execPrim_okL (p : PrimCmd) (d : Document)
    (ha : 0 ≤ d.active_layer_index) (hok : activeOKL d) :
    activeOKL (execPrim p d) ∧ 0 ≤ (execPrim p d).active_layer_index := by
  have hd : (d.layers.length = 0 ∧
        (d.active_layer_index = -1 ∨ d.active_layer_index = 0)) ∨
      (0 < d.layers.length ∧ 0 ≤ d.active_layer_index ∧
        d.active_layer_index < (d.layers.length : Int)) := by
    rcases Nat.eq_zero_or_pos d.layers.length with h | h
    · exact Or.inl ⟨h, hok.2 h⟩
    · exact Or.inr ⟨h, hok.1 h⟩
  cases p with
  | canvasImg lid bef aft =>
      rcases aft with _ | ⟨r, data⟩
      · exact ⟨hok, ha⟩
      · simp only [execPrim]
        split
        · exact ⟨okL_criterion _ d.layers.length d.active_layer_index
            (by simp [updateLayerById]) rfl (fun hpos => by omega)
            (fun h0 => by omega), ha⟩
        · exact ⟨hok, ha⟩
  | canvasMask lid bef aft =>
      rcases aft with _ | ⟨r, data⟩
      · exact ⟨hok, ha⟩
      · simp only [execPrim]
        split
        · exact ⟨okL_criterion _ d.layers.length d.active_layer_index
            (by simp [updateLayerById]) rfl (fun hpos => by omega)
            (fun h0 => by omega), ha⟩
        · exact ⟨hok, ha⟩
  | layerProp lid oldv newv notifies =>
      simp only [execPrim]
      split
      · exact ⟨okL_criterion _ d.layers.length d.active_layer_index
          (by simp [invalidateAllCaches, updateLayerById]) rfl
          (fun hpos => by omega) (fun h0 => by omega), ha⟩
      · exact ⟨okL_criterion _ d.layers.length d.active_layer_index
          (by simp [updateLayerById]) rfl (fun hpos => by omega)
          (fun h0 => by omega), ha⟩
  | structAdd layer index =>
      simp only [execPrim]
      obtain ⟨sa1, sacase⟩ :=
        set_active_cases { d with layers := pyInsert index layer d.layers } (index : Int)
      have hDlen : ({ d with layers := pyInsert index layer d.layers } :
          Document).layers.length = d.layers.length + 1 :=
        pyInsert_length index layer d.layers
      have hRlen : (Document.set_active_layer
          { d with layers := pyInsert index layer d.layers }
          (index : Int)).layers.length = d.layers.length + 1 := by
        rw [sa1]
        exact hDlen
      rcases sacase with ⟨hA, hg2⟩ | ⟨hA, hng⟩
      · exact ⟨okL_criterion _ (d.layers.length + 1) (index : Int) hRlen hA
          (fun hpos => by omega) (fun h0 => by omega), by rw [hA]; omega⟩
      · have hA' := hA.trans rfl
        exact ⟨okL_criterion _ (d.layers.length + 1) d.active_layer_index hRlen hA'
          (fun hpos => by omega) (fun h0 => by omega), by rw [hA']; exact ha⟩
  | structRemove layer index =>
      rcases hg : d.layers[index]? with _ | l0
      · simp only [execPrim, hg]
        exact ⟨hok, ha⟩
      · simp only [execPrim, hg]
        have hilt : index < d.layers.length := by
          rcases List.getElem?_eq_some.mp hg with ⟨h1, _⟩
          exact h1
        have hElen : (d.layers.eraseIdx index).length = d.layers.length - 1 :=
          List.length_eraseIdx_of_lt hilt
        split
        · split
          · rename_i hcond
            have hcond' : ((d.layers.eraseIdx index).length : Int) ≤
                d.active_layer_index := hcond
            obtain ⟨sa1, sacase⟩ := set_active_cases
              { d with layers := d.layers.eraseIdx index }
              (((d.layers.eraseIdx index).length : Int) - 1)
            have hDlen : ({ d with layers := d.layers.eraseIdx index } :
                Document).layers.length = d.layers.length - 1 := hElen
            have hRlen : (Document.set_active_layer
                { d with layers := d.layers.eraseIdx index }
                (((d.layers.eraseIdx index).length : Int) - 1)).layers.length =
                  d.layers.length - 1 := by
              rw [sa1]
              exact hDlen
            rcases sacase with ⟨hA, hg2⟩ | ⟨hA, hng⟩
            · exact ⟨okL_criterion _ (d.layers.length - 1) _ hRlen hA
                (fun hpos => by omega) (fun h0 => by omega), by rw [hA]; omega⟩
            · have hA' := hA.trans rfl
              exact ⟨okL_criterion _ (d.layers.length - 1) d.active_layer_index
                hRlen hA' (fun hpos => by omega) (fun h0 => by omega),
                by rw [hA']; exact ha⟩
          · rename_i hcond
            have hcond' : ¬ ((d.layers.eraseIdx index).length : Int) ≤
                d.active_layer_index := hcond
            exact ⟨okL_criterion _ (d.layers.length - 1) d.active_layer_index
              hElen rfl (fun hpos => by omega) (fun h0 => by omega), ha⟩
        · exact ⟨hok, ha⟩
  | structMove index previous =>
      rcases hg : d.layers[previous]? with _ | layer
      · simp only [execPrim, hg]
        exact ⟨hok, ha⟩
      · simp only [execPrim, hg]
        have hplt : previous < d.layers.length := by
          rcases List.getElem?_eq_some.mp hg with ⟨h1, _⟩
          exact h1
        have hMlen : (pyInsert index layer (d.layers.eraseIdx previous)).length =
            d.layers.length := by
          rw [pyInsert_length, List.length_eraseIdx_of_lt hplt]
          omega
        split
        · split
          · obtain ⟨sa1, sacase⟩ := set_active_cases
              (invalidateAllCaches
                { d with layers := pyInsert index layer (d.layers.eraseIdx previous) })
              (index : Int)
            have hIlen : (invalidateAllCaches
                { d with layers := pyInsert index layer (d.layers.eraseIdx previous)
                }).layers.length = d.layers.length := hMlen
            have hRlen : (Document.set_active_layer
                (invalidateAllCaches
                  { d with layers := pyInsert index layer (d.layers.eraseIdx previous) })
                (index : Int)).layers.length = d.layers.length := by
              rw [sa1]
              exact hIlen
            rcases sacase with ⟨hA, hg2⟩ | ⟨hA, hng⟩
            · exact ⟨okL_criterion _ d.layers.length (index : Int) hRlen hA
                (fun hpos => by omega) (fun h0 => by omega), by rw [hA]; omega⟩
            · have hA' := hA.trans rfl
              exact ⟨okL_criterion _ d.layers.length d.active_layer_index hRlen hA'
                (fun hpos => by omega) (fun h0 => by omega), by rw [hA']; exact ha⟩
          · exact ⟨okL_criterion _ d.layers.length d.active_layer_index hMlen rfl
              (fun hpos => by omega) (fun h0 => by omega), ha⟩
        · exact ⟨okL_criterion _ d.layers.length d.active_layer_index hMlen rfl
            (fun hpos => by omega) (fun h0 => by omega), ha⟩
  | docProp oldv newv notifies =>
      simp only [execPrim]
      split
      · exact ⟨hok, ha⟩
      · exact ⟨hok, ha⟩
  | selection oldm newm => exact ⟨hok, ha⟩

/-- `undo()` of any primitive command preserves `activeOKL`, and from a
non-negative active index it never produces a negative one. -/
theorem undoPrim_okL (p : PrimCmd) (d : Document)
    (ha : 0 ≤ d.active_layer_index) (hok : activeOKL d) :
    activeOKL (undoPrim p d) ∧ 0 ≤ (undoPrim p d).active_layer_index := by
  have hd : (d.layers.length = 0 ∧
        (d.active_layer_index = -1 ∨ d.active_layer_index = 0)) ∨
      (0 < d.layers.length ∧ 0 ≤ d.active_layer_index ∧
        d.active_layer_index < (d.layers.length : Int)) := by
    rcases Nat.eq_zero_or_pos d.layers.length with h | h
    · exact Or.inl ⟨h, hok.2 h⟩
    · exact Or.inr ⟨h, hok.1 h⟩
  cases p with
  | canvasImg lid bef aft =>
      rcases bef with _ | ⟨r, data⟩
      · exact ⟨hok, ha⟩
      · simp only [undoPrim]
        split
        · exact ⟨okL_criterion _ d.layers.length d.active_layer_index
            (by simp [updateLayerById]) rfl (fun hpos => by omega)
            (fun h0 => by omega), ha⟩
        · exact ⟨hok, ha⟩
  | canvasMask lid bef aft =>
      rcases bef with _ | ⟨r, data⟩
      · exact ⟨hok, ha⟩
      · simp only [undoPrim]
        split
        · exact ⟨okL_criterion _ d.layers.length d.active_layer_index
            (by simp [updateLayerById]) rfl (fun hpos => by omega)
            (fun h0 => by omega), ha⟩
        · exact ⟨hok, ha⟩
  | layerProp lid oldv newv notifies =>
      simp only [undoPrim]
      split
      · exact ⟨okL_criterion _ d.layers.length d.active_layer_index
          (by simp [invalidateAllCaches, updateLayerById]) rfl
          (fun hpos => by omega) (fun h0 => by omega), ha⟩
      · exact ⟨okL_criterion _ d.layers.length d.active_layer_index
          (by simp [updateLayerById]) rfl (fun hpos => by omega)
          (fun h0 => by omega), ha⟩
  | structAdd layer index =>
      rcases hg : d.layers[index]? with _ | l0
      · simp only [undoPrim, hg]
        exact ⟨hok, ha⟩
      · simp only [undoPrim, hg]
        have hilt : index < d.layers.length := by
          rcases List.getElem?_eq_some.mp hg with ⟨h1, _⟩
          exact h1
        have hElen : (d.layers.eraseIdx index).length = d.layers.length - 1 :=
          List.length_eraseIdx_of_lt hilt
        split
        · obtain ⟨sa1, sacase⟩ := set_active_cases
            { d with layers := d.layers.eraseIdx index } (max 0 ((index : Int) - 1))
          have hDlen : ({ d with layers := d.layers.eraseIdx index } :
              Document).layers.length = d.layers.length - 1 := hElen
          have hRlen : (Document.set_active_layer
              { d with layers := d.layers.eraseIdx index }
              (max 0 ((index : Int) - 1))).layers.length = d.layers.length - 1 := by
            rw [sa1]
            exact hDlen
          rcases sacase with ⟨hA, hg2⟩ | ⟨hA, hng⟩
          · exact ⟨okL_criterion _ (d.layers.length - 1) _ hRlen hA
              (fun hpos => by omega) (fun h0 => by omega), by rw [hA]; omega⟩
          · have hA' := hA.trans rfl
            exact ⟨okL_criterion _ (d.layers.length - 1) d.active_layer_index
              hRlen hA' (fun hpos => by omega) (fun h0 => by omega),
              by rw [hA']; exact ha⟩
        · exact ⟨hok, ha⟩
  | structRemove layer index =>
      simp only [undoPrim]
      obtain ⟨sa1, sacase⟩ :=
        set_active_cases { d with layers := pyInsert index layer d.layers } (index : Int)
      have hDlen : ({ d with layers := pyInsert index layer d.layers } :
          Document).layers.length = d.layers.length + 1 :=
        pyInsert_length index layer d.layers
      have hRlen : (Document.set_active_layer
          { d with layers := pyInsert index layer d.layers }
          (index : Int)).layers.length = d.layers.length + 1 := by
        rw [sa1]
        exact hDlen
      rcases sacase with ⟨hA, hg2⟩ | ⟨hA, hng⟩
      · exact ⟨okL_criterion _ (d.layers.length + 1) (index : Int) hRlen hA
          (fun hpos => by omega) (fun h0 => by omega), by rw [hA]; omega⟩
      · have hA' := hA.trans rfl
        exact ⟨okL_criterion _ (d.layers.length + 1) d.active_layer_index hRlen hA'
          (fun hpos => by omega) (fun h0 => by omega), by rw [hA']; exact ha⟩
  | structMove index previous =>
      rcases hg : d.layers[index]? with _ | layer
      · simp only [undoPrim, hg]
        exact ⟨hok, ha⟩
      · simp only [undoPrim, hg]
        have hplt : index < d.layers.length := by
          rcases List.getElem?_eq_some.mp hg with ⟨h1, _⟩
          exact h1
        have hMlen : (pyInsert previous layer (d.layers.eraseIdx index)).length =
            d.layers.length := by
          rw [pyInsert_length, List.length_eraseIdx_of_lt hplt]
          omega
        split
        · split
          · obtain ⟨sa1, sacase⟩ := set_active_cases
              (invalidateAllCaches
                { d with layers := pyInsert previous layer (d.layers.eraseIdx index) })
              (previous : Int)
            have hIlen : (invalidateAllCaches
                { d with layers := pyInsert previous layer (d.layers.eraseIdx index)
                }).layers.length = d.layers.length := hMlen
            have hRlen : (Document.set_active_layer
                (invalidateAllCaches
                  { d with layers := pyInsert previous layer (d.layers.eraseIdx index) })
                (previous : Int)).layers.length = d.layers.length := by
              rw [sa1]
              exact hIlen
            rcases sacase with ⟨hA, hg2⟩ | ⟨hA, hng⟩
            · exact ⟨okL_criterion _ d.layers.length (previous : Int) hRlen hA
                (fun hpos => by omega) (fun h0 => by omega), by rw [hA]; omega⟩
            · have hA' := hA.trans rfl
              exact ⟨okL_criterion _ d.layers.length d.active_layer_index hRlen hA'
                (fun hpos => by omega) (fun h0 => by omega), by rw [hA']; exact ha⟩
          · exact ⟨okL_criterion _ d.layers.length d.active_layer_index hMlen rfl
              (fun hpos => by omega) (fun h0 => by omega), ha⟩
        · exact ⟨okL_criterion _ d.layers.length d.active_layer_index hMlen rfl
            (fun hpos => by omega) (fun h0 => by omega), ha⟩
  | docProp oldv newv notifies =>
      simp only [undoPrim]
      split
      · exact ⟨hok, ha⟩
      · exact ⟨hok, ha⟩
  | selection oldm newm => exact ⟨hok, ha⟩

theorem foldExec_okL (cs : List PrimCmd) :
    ∀ d : Document, 0 ≤ d.active_layer_index → activeOKL d →
      activeOKL (cs.foldl (fun d p => execPrim p d) d) ∧
        0 ≤ (cs.foldl (fun d p => execPrim p d) d).active_layer_index := by
  induction cs with
  | nil => intro d ha hok; exact ⟨hok, ha⟩
  | cons p rest ih =>
      intro d ha hok
      obtain ⟨h1, h2⟩ := execPrim_okL p d ha hok
      rw [List.foldl_cons]
      exact ih (execPrim p d) h2 h1

theorem foldUndo_okL (cs : List PrimCmd) :
    ∀ d : Document, 0 ≤ d.active_layer_index → activeOKL d →
      activeOKL (cs.foldl (fun d p => undoPrim p d) d) ∧
        0 ≤ (cs.foldl (fun d p => undoPrim p d) d).active_layer_index := by
  induction cs with
  | nil => intro d ha hok; exact ⟨hok, ha⟩
  | cons p rest ih =>
      intro d ha hok
      obtain ⟨h1, h2⟩ := undoPrim_okL p d ha hok
      rw [List.foldl_cons]
      exact ih (undoPrim p d) h2 h1

/-- `Command.execute` preserves `activeOKL` from any state with a
non-negative index. -/
theorem execC_okL (c : Cmd) (d : Document) (ha : 0 ≤ d.active_layer_index)
    (hok : activeOKL d) :
    activeOKL (Cmd.execC c d) ∧ 0 ≤ (Cmd.execC c d).active_layer_index := by
  cases c with
  | prim p => exact execPrim_okL p d ha hok
  | macroCommand cs => exact foldExec_okL cs d ha hok

/-- `Command.undo` preserves `activeOKL` from any state with a
non-negative index. -/
theorem undoC_okL (c : Cmd) (d : Document) (ha : 0 ≤ d.active_layer_index)
    (hok : activeOKL d) :
    activeOKL (Cmd.undoC c d) ∧ 0 ≤ (Cmd.undoC c d).active_layer_index := by
  cases c with
  | prim p => exact undoPrim_okL p d ha hok
  | macroCommand cs => exact foldUndo_okL cs.reverse d ha hok

/-- A non-structure primitive touches neither the active index nor the
layer count when executed. -/
theorem execPrim_frame (p : PrimCmd) (hns : noStructP p) (d : Document) :
    (execPrim p d).active_layer_index = d.active_layer_index ∧
    (execPrim p d).layers.length = d.layers.length := by
  cases p with
  | canvasImg lid bef aft =>
      rcases aft with _ | ⟨r, data⟩
      · exact ⟨rfl, rfl⟩
      · simp only [execPrim]
        split
        · exact ⟨rfl, by simp [updateLayerById]⟩
        · exact ⟨rfl, rfl⟩
  | canvasMask lid bef aft =>
      rcases aft with _ | ⟨r, data⟩
      · exact ⟨rfl, rfl⟩
      · simp only [execPrim]
        split
        · exact ⟨rfl, by simp [updateLayerById]⟩
        · exact ⟨rfl, rfl⟩
  | layerProp lid oldv newv notifies =>
      simp only [execPrim]
      split
      · exact ⟨rfl, by simp [invalidateAllCaches, updateLayerById]⟩
      · exact ⟨rfl, by simp [updateLayerById]⟩
  | structAdd layer index => exact hns.elim
  | structRemove layer index => exact hns.elim
  | structMove index previous => exact hns.elim
  | docProp oldv newv notifies =>
      simp only [execPrim]
      split
      · exact ⟨rfl, rfl⟩
      · exact ⟨rfl, rfl⟩
  | selection oldm newm => exact ⟨rfl, rfl⟩

/-- A non-structure primitive touches neither the active index nor the
layer count when undone. -/
theorem undoPrim_frame (p : PrimCmd) (hns : noStructP p) (d : Document) :
    (undoPrim p d).active_layer_index = d.active_layer_index ∧
    (undoPrim p d).layers.length = d.layers.length := by
  cases p with
  | canvasImg lid bef aft =>
      rcases bef with _ | ⟨r, data⟩
      · exact ⟨rfl, rfl⟩
      · simp only [undoPrim]
        split
        · exact ⟨rfl, by simp [updateLayerById]⟩
        · exact ⟨rfl, rfl⟩
  | canvasMask lid bef aft =>
      rcases bef with _ | ⟨r, data⟩
      · exact ⟨rfl, rfl⟩
      · simp only [undoPrim]
        split
        · exact ⟨rfl, by simp [updateLayerById]⟩
        · exact ⟨rfl, rfl⟩
  | layerProp lid oldv newv notifies =>
      simp only [undoPrim]
      split
      · exact ⟨rfl, by simp [invalidateAllCaches, updateLayerById]⟩
      · exact ⟨rfl, by simp [updateLayerById]⟩
  | structAdd layer index => exact hns.elim
  | structRemove layer index => exact hns.elim
  | structMove index previous => exact hns.elim
  | docProp oldv newv notifies =>
      simp only [undoPrim]
      split
      · exact ⟨rfl, rfl⟩
      · exact ⟨rfl, rfl⟩
  | selection oldm newm => exact ⟨rfl, rfl⟩

theorem foldExec_frame (cs : List PrimCmd) :
    ∀ d : Document, (∀ p ∈ cs, noStructP p) →
      (cs.foldl (fun d p => execPrim p d) d).active_layer_index =
          d.active_layer_index ∧
        (cs.foldl (fun d p => execPrim p d) d).layers.length = d.layers.length := by
  induction cs with
  | nil => intro d _; exact ⟨rfl, rfl⟩
  | cons p rest ih =>
      intro d hns
      obtain ⟨h1, h2⟩ := execPrim_frame p (hns p (List.mem_cons_self p rest)) d
      obtain ⟨h3, h4⟩ := ih (execPrim p d) fun q hq => hns q (List.mem_cons_of_mem p hq)
      rw [List.foldl_cons]
      exact ⟨h3.trans h1, h4.trans h2⟩

theorem foldUndo_frame (cs : List PrimCmd) :
    ∀ d : Document, (∀ p ∈ cs, noStructP p) →
      (cs.foldl (fun d p => undoPrim p d) d).active_layer_index =
          d.active_layer_index ∧
        (cs.foldl (fun d p => undoPrim p d) d).layers.length = d.layers.length := by
  induction cs with
  | nil => intro d _; exact ⟨rfl, rfl⟩
  | cons p rest ih =>
      intro d hns
      obtain ⟨h1, h2⟩ := undoPrim_frame p (hns p (List.mem_cons_self p rest)) d
      obtain ⟨h3, h4⟩ := ih (undoPrim p d) fun q hq => hns q (List.mem_cons_of_mem p hq)
      rw [List.foldl_cons]
      exact ⟨h3.trans h1, h4.trans h2⟩

/-- A structure-free command leaves the active index and layer count
unchanged when executed. -/
theorem execC_frame (c : Cmd) (hns : noStructCmd c) (d : Document) :
    (Cmd.execC c d).active_layer_index = d.active_layer_index ∧
    (Cmd.execC c d).layers.length = d.layers.length := by
  cases c with
  | prim p => exact execPrim_frame p hns d
  | macroCommand cs => exact foldExec_frame cs d hns

/-- A structure-free command leaves the active index and layer count
unchanged when undone. -/
theorem undoC_frame (c : Cmd) (hns : noStructCmd c) (d : Document) :
    (Cmd.undoC c d).active_layer_index = d.active_layer_index ∧
    (Cmd.undoC c d).layers.length = d.layers.length := by
  cases c with
  | prim p => exact undoPrim_frame p hns d
  | macroCommand cs =>
      exact foldUndo_frame cs.reverse d fun q hq => hns q (List.mem_reverse.mp hq)

theorem okL_destruct (d : Document) (hok : activeOKL d) :
    (d.layers.length = 0 ∧
      (d.active_layer_index = -1 ∨ d.active_layer_index = 0)) ∨
    (0 < d.layers.length ∧ 0 ≤ d.active_layer_index ∧
      d.active_layer_index < (d.layers.length : Int)) := by
  rcases Nat.eq_zero_or_pos d.layers.length with h | h
  · exact Or.inl ⟨h, hok.2 h⟩
  · exact Or.inr ⟨h, hok.1 h⟩

theorem okL_updateLayerById (d : Document) (lid : Nat) (f : Layer → Layer)
    (hok : activeOKL d) : activeOKL (updateLayerById d lid f) := by
  have hd := okL_destruct d hok
  exact okL_criterion _ d.layers.length d.active_layer_index
    (by simp [updateLayerById]) rfl (fun hpos => by omega) (fun h0 => by omega)

/-- A state whose active index is non-negative satisfies the invariant as
soon as `activeOKL` does. -/
theorem C5_of_okL_nonneg (R : Document) (hok : activeOKL R)
    (hpos : 0 ≤ R.active_layer_index) : C5Inv R := by
  refine ⟨hok, fun habs => ?_⟩
  rw [habs] at hpos
  exact absurd hpos (by omega)

/-- A state with a valid active index satisfies the invariant outright. -/
theorem C5_of_valid_active (R : Document) (n : Nat) (a : Int)
    (hLen : R.layers.length = n) (hAct : R.active_layer_index = a)
    (h1 : 0 ≤ a) (h2 : a < (n : Int)) : C5Inv R := by
  refine ⟨okL_criterion R n a hLen hAct (fun _ => ⟨h1, h2⟩)
    (fun h0 => by omega), fun habs => ?_⟩
  rw [hAct] at habs
  exact absurd h1 (by omega)

/-- Executing an "add" structure command at an in-range position always
re-points the active index at the inserted layer. -/
theorem structAdd_sets_active (layer : Layer) (i : Nat) (d : Document)
    (hi : i ≤ d.layers.length) :
    (execPrim (.structAdd layer i) d).active_layer_index = (i : Int) ∧
    (execPrim (.structAdd layer i) d).layers.length = d.layers.length + 1 := by
  simp only [execPrim]
  obtain ⟨sa1, sacase⟩ :=
    set_active_cases { d with layers := pyInsert i layer d.layers } (i : Int)
  have hDlen : ({ d with layers := pyInsert i layer d.layers } :
      Document).layers.length = d.layers.length + 1 := pyInsert_length i layer d.layers
  rcases sacase with ⟨hA, hg2⟩ | ⟨hA, hng⟩
  · refine ⟨hA, ?_⟩
    rw [sa1]
    exact hDlen
  · exact absurd (by omega) hng

/-- `add_layer` / `duplicate_layer` after the history push: the new state
has a valid active index, so the invariant holds unconditionally. -/
theorem structAdd_push_C5 (layer : Layer) (i : Nat) (c : Cmd) (d : Document)
    (hi : i ≤ d.layers.length) :
    C5Inv (Cmd.execC (.prim (.structAdd layer i)) (docPush c d)) := by
  obtain ⟨hA, hL⟩ := structAdd_sets_active layer i (docPush c d) hi
  exact C5_of_valid_active _ (d.layers.length + 1) (i : Int) hL hA
    (by omega) (by omega)

/-- Pushing and executing a `SelectionCommand` preserves the invariant:
layers and index are untouched and the pushed command is structure-free. -/
theorem selection_push_C5 (d : Document) (oldm newm : AMask) (h : C5Inv d) :
    C5Inv (Cmd.execC (.prim (.selection oldm newm))
      (docPush (.prim (.selection oldm newm)) d)) := by
  refine ⟨h.1, fun habs => ?_⟩
  have habs' : d.active_layer_index = -1 := habs
  obtain ⟨hemp, hu, hr⟩ := h.2 habs'
  obtain ⟨hu2, hr2⟩ := push_noStructStack d.history
    (.prim (.selection oldm newm)) hu trivial
  exact ⟨hemp, hu2, hr2⟩

/-- `undo()` (no-op included) preserves the invariant. -/
theorem docUndo_C5 (d : Document) (h : C5Inv d) : C5Inv (docUndo d) := by
  unfold docUndo
  rcases hL : d.history.undo_stack.getLast? with _ | c
  · exact h
  · dsimp only
    by_cases hact : 0 ≤ d.active_layer_index
    · obtain ⟨hok2, hpos2⟩ := undoC_okL c
        { d with history :=
          { d.history with undo_stack := d.history.undo_stack.dropLast } }
        hact h.1
      exact C5_of_okL_nonneg _ hok2 hpos2
    · have ha1 : d.active_layer_index = -1 := by
        rcases Nat.eq_zero_or_pos d.layers.length with h0 | hp
        · rcases h.1.2 h0 with h' | h'
          · exact h'
          · exact absurd (by omega) hact
        · exact absurd (h.1.1 hp).1 hact
      obtain ⟨hemp, hu, hr⟩ := h.2 ha1
      have hcmem : c ∈ d.history.undo_stack := List.mem_of_mem_getLast? hL
      have hcns : noStructCmd c := hu c hcmem
      obtain ⟨hfa, hfl⟩ := undoC_frame c hcns
        { d with history :=
          { d.history with undo_stack := d.history.undo_stack.dropLast } }
      have hzero : d.layers.length = 0 := by simp [hemp]
      constructor
      · exact okL_criterion _ 0 (-1) (hfl.trans hzero) (hfa.trans ha1)
          (fun hpos => absurd hpos (by omega)) (fun _ => Or.inl rfl)
      · intro _
        refine ⟨List.length_eq_zero.mp (hfl.trans hzero), ?_, ?_⟩
        · intro x hx
          have hx2 : x ∈ (Cmd.undoC c
              { d with history :=
                { d.history with undo_stack := d.history.undo_stack.dropLast }
              }).history.undo_stack := hx
          rw [undoC_history] at hx2
          have hx3 : x ∈ d.history.undo_stack.dropLast := hx2
          exact hu x ((List.dropLast_sublist _).subset hx3)
        · intro x hx
          have hx2 : x ∈ (Cmd.undoC c
              { d with history :=
                { d.history with undo_stack := d.history.undo_stack.dropLast }
              }).history.redo_stack ++ [c] := hx
          rw [undoC_history] at hx2
          have hx3 : x ∈ d.history.redo_stack ++ [c] := hx2
          rcases List.mem_append.mp hx3 with h' | h'
          · exact hr x h'
          · rw [List.mem_singleton.mp h']
            exact hcns

/-- `redo()` (no-op included) preserves the invariant. -/
theorem docRedo_C5 (d : Document) (h : C5Inv d) : C5Inv (docRedo d) := by
  unfold docRedo
  rcases hL : d.history.redo_stack.getLast? with _ | c
  · exact h
  · dsimp only
    by_cases hact : 0 ≤ d.active_layer_index
    · obtain ⟨hok2, hpos2⟩ := execC_okL c
        { d with history :=
          { d.history with redo_stack := d.history.redo_stack.dropLast } }
        hact h.1
      exact C5_of_okL_nonneg _ hok2 hpos2
    · have ha1 : d.active_layer_index = -1 := by
        rcases Nat.eq_zero_or_pos d.layers.length with h0 | hp
        · rcases h.1.2 h0 with h' | h'
          · exact h'
          · exact absurd (by omega) hact
        · exact absurd (h.1.1 hp).1 hact
      obtain ⟨hemp, hu, hr⟩ := h.2 ha1
      have hcmem : c ∈ d.history.redo_stack := List.mem_of_mem_getLast? hL
      have hcns : noStructCmd c := hr c hcmem
      obtain ⟨hfa, hfl⟩ := execC_frame c hcns
        { d with history :=
          { d.history with redo_stack := d.history.redo_stack.dropLast } }
      have hzero : d.layers.length = 0 := by simp [hemp]
      constructor
      · exact okL_criterion _ 0 (-1) (hfl.trans hzero) (hfa.trans ha1)
          (fun hpos => absurd hpos (by omega)) (fun _ => Or.inl rfl)
      · intro _
        refine ⟨List.length_eq_zero.mp (hfl.trans hzero), ?_, ?_⟩
        · intro x hx
          have hx2 : x ∈ (Cmd.execC c
              { d with history :=
                { d.history with redo_stack := d.history.redo_stack.dropLast }
              }).history.undo_stack ++ [c] := hx
          rw [execC_history] at hx2
          have hx3 : x ∈ d.history.undo_stack ++ [c] := hx2
          rcases List.mem_append.mp hx3 with h' | h'
          · exact hu x h'
          · rw [List.mem_singleton.mp h']
            exact hcns
        · intro x hx
          have hx2 : x ∈ (Cmd.execC c
              { d with history :=
                { d.history with redo_stack := d.history.redo_stack.dropLast }
              }).history.redo_stack := hx
          rw [execC_history] at hx2
          have hx3 : x ∈ d.history.redo_stack.dropLast := hx2
          exact hr x ((List.dropLast_sublist _).subset hx3)

theorem undoTimes_C5 (n : Nat) :
    ∀ d : Document, C5Inv d → C5Inv (undoTimes n d) := by
  induction n with
  | zero => intro d h; exact h
  | succ k ih => intro d h; exact ih (docUndo d) (docUndo_C5 d h)

theorem docGoto_C5 (d : Document) (i : Int) (h : C5Inv d) : C5Inv (docGoto d i) := by
  simp only [docGoto]
  split
  · exact h
  · exact undoTimes_C5 _ d h

theorem docClearHistory_C5 (d : Document) (h : C5Inv d) :
    C5Inv (docClearHistory d) := by
  refine ⟨h.1, fun habs => ?_⟩
  have habs' : d.active_layer_index = -1 := habs
  obtain ⟨hemp, _, _⟩ := h.2 habs'
  refine ⟨hemp, ?_, ?_⟩
  · intro x hx
    exact absurd hx (List.not_mem_nil x)
  · intro x hx
    exact absurd hx (List.not_mem_nil x)

theorem render_C5 (d : Document) (h : C5Inv d) : C5Inv (d.render).2 :=
  ⟨h.1, fun habs => h.2 habs⟩

theorem add_layer_C5 (d : Document) (id : Nat) (nm : String) (_h : C5Inv d) :
    C5Inv (d.add_layer id nm) := by
  unfold Document.add_layer
  exact structAdd_push_C5 _ _ _ d (Nat.le_refl _)

theorem duplicate_layer_C5 (d : Document) (i : Int) (id : Nat) (h : C5Inv d) :
    C5Inv (d.duplicate_layer i id) := by
  unfold Document.duplicate_layer
  split
  · exact h
  · rename_i hg
    rcases hq : d.layers[i.toNat]? with _ | orig
    · exact h
    · exact structAdd_push_C5 _ _ _ d (by omega)

theorem delete_layer_C5 (d : Document) (i : Int) (h : C5Inv d) :
    C5Inv (d.delete_layer i) := by
  unfold Document.delete_layer
  split
  · rename_i hg
    rcases hq : d.layers[i.toNat]? with _ | layer
    · exact h
    · have hpos : 0 < d.layers.length := by omega
      have ha : 0 ≤ d.active_layer_index := (h.1.1 hpos).1
      obtain ⟨hok2, hpos2⟩ := execC_okL (.prim (.structRemove layer i.toNat))
        (docPush (.prim (.structRemove layer i.toNat)) d) ha h.1
      exact C5_of_okL_nonneg _ hok2 hpos2
  · exact h

theorem move_layer_C5 (d : Document) (i j : Int) (h : C5Inv d) :
    C5Inv (d.move_layer i j) := by
  unfold Document.move_layer
  split
  · exact h
  · split
    · rename_i hne hg
      have hpos : 0 < d.layers.length := by omega
      have ha : 0 ≤ d.active_layer_index := (h.1.1 hpos).1
      obtain ⟨hok2, hpos2⟩ := execC_okL (.prim (.structMove j.toNat i.toNat))
        (docPush (.prim (.structMove j.toNat i.toNat)) d) ha h.1
      exact C5_of_okL_nonneg _ hok2 hpos2
    · exact h

theorem move_layer_up_C5 (d : Document) (h : C5Inv d) : C5Inv d.move_layer_up := by
  unfold Document.move_layer_up
  dsimp only
  split
  · exact move_layer_C5 d _ _ h
  · exact h

theorem move_layer_down_C5 (d : Document) (h : C5Inv d) : C5Inv d.move_layer_down := by
  unfold Document.move_layer_down
  dsimp only
  split
  · exact move_layer_C5 d _ _ h
  · exact h

theorem flattenRemove_okL (ls : List Layer) :
    ∀ st : Document × List PrimCmd, 0 ≤ st.1.active_layer_index →
      activeOKL st.1 →
      activeOKL (flattenRemove ls st).1 ∧
        0 ≤ (flattenRemove ls st).1.active_layer_index := by
  induction ls with
  | nil => intro st ha hok; exact ⟨hok, ha⟩
  | cons l rest ih =>
      intro st ha hok
      rcases st with ⟨d0, acc⟩
      simp only [flattenRemove]
      obtain ⟨h1, h2⟩ := execPrim_okL
        (.structRemove l (indexOfId d0.layers l.id)) d0 ha hok
      exact ih _ h2 h1

theorem flatten_image_C5 (d : Document) (id : Nat) (h : C5Inv d) :
    C5Inv (d.flatten_image id) := by
  unfold Document.flatten_image
  split
  · exact h
  · rename_i hg
    have hpos : 0 < d.layers.length := by omega
    have ha : 0 ≤ d.active_layer_index := (h.1.1 hpos).1
    obtain ⟨h1, h2⟩ := flattenRemove_okL d.layers.reverse (d, []) ha h.1
    obtain ⟨h3, h4⟩ := execPrim_okL
      (.structAdd
        { mkLayer d.width d.height id "Background" with
          image := d.layers.foldl
            (fun img l => if l.visible then
              drawImageOver (qtOpacityA8 l.opacity) img l.image else img)
            ⟨d.width, d.height, fun _ _ => ⟨255, 255, 255, 255⟩⟩ } 0)
      (flattenRemove d.layers.reverse (d, [])).1 h2 h1
    exact C5_of_okL_nonneg _ h3 h4

theorem merge_layer_down_C5 (d : Document) (i : Int) (h : C5Inv d) :
    C5Inv (d.merge_layer_down i) := by
  unfold Document.merge_layer_down
  split
  · exact h
  · rename_i hg
    rcases hq1 : d.layers[i.toNat]? with _ | top
    · exact h
    · rcases hq2 : d.layers[i.toNat - 1]? with _ | bottom
      · exact h
      · have hpos : 0 < d.layers.length := by omega
        have ha : 0 ≤ d.active_layer_index := (h.1.1 hpos).1
        obtain ⟨h1, h2⟩ := execPrim_okL (.structRemove top i.toNat) d ha h.1
        have h3 := okL_updateLayerById (execPrim (.structRemove top i.toNat) d)
          bottom.id
          (fun l => { l with
            image := drawImageOver (qtOpacityA8 top.opacity)
              bottom.image top.image })
          h1
        exact C5_of_okL_nonneg _ h3 h2

theorem combine_selection_C5 (d : Document) (m : AMask) (op : SelOp)
    (h : C5Inv d) : C5Inv (d.combine_selection m op) := by
  unfold Document.combine_selection
  exact selection_push_C5 d _ _ h

theorem set_selection_C5 (d : Document) (r : Rect) (op : SelOp) (h : C5Inv d) :
    C5Inv (d.set_selection r op) := by
  unfold Document.set_selection Document.combine_selection
  exact selection_push_C5 d _ _ h

theorem clear_selection_C5 (d : Document) (h : C5Inv d) :
    C5Inv d.clear_selection := by
  unfold Document.clear_selection
  split
  · exact h
  · exact set_selection_C5 d _ _ h

theorem select_all_C5 (d : Document) (h : C5Inv d) : C5Inv d.select_all := by
  unfold Document.select_all Document.combine_selection
  exact selection_push_C5 d _ _ h

theorem invert_selection_C5 (d : Document) (h : C5Inv d) :
    C5Inv d.invert_selection := by
  unfold Document.invert_selection
  exact selection_push_C5 d _ _ h

theorem feather_selection_C5 (ks : SelKernels) (d : Document) (r : Int)
    (h : C5Inv d) : C5Inv (Document.feather_selection ks d r) := by
  unfold Document.feather_selection
  split
  · exact h
  · exact selection_push_C5 d _ _ h

theorem expand_selection_C5 (ks : SelKernels) (d : Document) (n : Int)
    (h : C5Inv d) : C5Inv (Document.expand_selection ks d n) := by
  unfold Document.expand_selection
  split
  · exact h
  · exact selection_push_C5 d _ _ h

theorem contract_selection_C5 (ks : SelKernels) (d : Document) (n : Int)
    (h : C5Inv d) : C5Inv (Document.contract_selection ks d n) := by
  unfold Document.contract_selection
  split
  · exact h
  · exact selection_push_C5 d _ _ h

/-- Every public operation preserves the invariant. -/
theorem applyReachOp_C5 (ks : SelKernels) (d : Document) (op : ReachOp)
    (h : C5Inv d) : C5Inv (applyReachOp ks d op) := by
  cases op with
  | addLayer id nm => exact add_layer_C5 d id nm h
  | deleteLayer i => exact delete_layer_C5 d i h
  | duplicateLayer i id => exact duplicate_layer_C5 d i id h
  | moveLayer i j => exact move_layer_C5 d i j h
  | moveLayerUp => exact move_layer_up_C5 d h
  | moveLayerDown => exact move_layer_down_C5 d h
  | flatten id => exact flatten_image_C5 d id h
  | mergeDown i => exact merge_layer_down_C5 d i h
  | combineSel m op => exact combine_selection_C5 d m op h
  | setSel r op => exact set_selection_C5 d r op h
  | clearSel => exact clear_selection_C5 d h
  | selectAllOp => exact select_all_C5 d h
  | invertSel => exact invert_selection_C5 d h
  | featherSel r => exact feather_selection_C5 ks d r h
  | expandSel n => exact expand_selection_C5 ks d n h
  | contractSel n => exact contract_selection_C5 ks d n h
  | undoOp => exact docUndo_C5 d h
  | redoOp => exact docRedo_C5 d h
  | gotoIdx i => exact docGoto_C5 d i h
  | clearHist => exact docClearHistory_C5 d h
  | renderOp => exact render_C5 d h

theorem applyReachOps_C5 (ks : SelKernels) (ops : List ReachOp) :
    ∀ d : Document, C5Inv d → C5Inv (applyReachOps ks d ops) := by
  induction ops with
  | nil => intro d h; exact h
  | cons op rest ih =>
      intro d h
      rw [applyReachOps, List.foldl_cons]
      exact ih (applyReachOp ks d op) (applyReachOp_C5 ks d op h)

theorem mkDocument_C5 (w h : Nat) : C5Inv (mkDocument w h) := by
  refine ⟨⟨fun hpos => absurd hpos (Nat.lt_irrefl 0), fun _ => Or.inl rfl⟩, ?_⟩
  intro _
  refine ⟨rfl, ?_, ?_⟩
  · intro x hx
    exact absurd hx (List.not_mem_nil x)
  · intro x hx
    exact absurd hx (List.not_mem_nil x)

/-- **C5** (corrected).  In every document state reachable from a fresh
`Document(w, h)` through the public operations — layer structure changes,
selection edits, history navigation and rendering — the active layer index
is a valid index `0 ≤ i < len(layers)` whenever the layer list is nonempty,
and on an empty layer list it is -1 or a stale 0.  The claim's stronger
"-1 whenever the layer list is empty" is refuted by
`active_index_counterexample`: `set_active_layer(max(0, index - 1))` in the
undo of an add silently fails on an empty list and leaves the index at 0. -/
theorem active_index_invariant (ks : SelKernels) (w h : Nat)
    (ops : List ReachOp) :
    activeOK (applyReachOps ks (mkDocument w h) ops) :=
  (activeOK_iff _).mpr
    (applyReachOps_C5 ks ops (mkDocument w h) (mkDocument_C5 w h)).1

/-- **C5, counterexample to the claim as stated**: adding a layer to a
fresh document and undoing leaves the layer list empty with active index 0,
not -1. -/
theorem active_index_counterexample :
    (applyReachOps idKernels (mkDocument 4 4)
        [.addLayer 7 "L", .undoOp]).layers = [] ∧
    (applyReachOps idKernels (mkDocument 4 4)
        [.addLayer 7 "L", .undoOp]).active_layer_index ≠ -1 := by
  constructor
  · rfl
  · decide

end Aphelion
